import Mathlib

/-!
Verification of the `morelib` utility library (modules `math`, `util`, `random`).

Python code is shallowly embedded: Python floats are modelled as rationals
(`ℚ`), Python exceptions as `Except` / `Option` results, and the one piece of
in-place mutation that matters (`list.__iadd__` inside `djoin`) as an explicit
heap of list values.  Randomness (`random.shuffle`, `random.uniform`) is
modelled by oracle parameters; theorems about random operations quantify over
all oracles whose shuffle produces a permutation of its input.
-/

namespace Morelib

/-- Error values raised by the `math` module: `ValueError`,
`ZeroDivisionError` and `TypeError`. -/
inductive MathError where
  | valueError
  | zeroDivisionError
  | typeError
deriving DecidableEq

/-- `morelib.math.normalize`: checks every entry is a non-negative number
(otherwise `TypeError`), then divides each entry by `sum(vector)`.  The
division is executed once per element, so an empty vector returns `[]`
without dividing, while a non-empty vector with zero sum raises
`ZeroDivisionError` at the first element. -/
def mathNormalize (vector : List ℚ) : Except MathError (List ℚ) :=
  if vector.all (fun n => decide (0 ≤ n)) then
    if vector.isEmpty then Except.ok []
    else if vector.sum = 0 then Except.error MathError.zeroDivisionError
    else Except.ok (vector.map (fun val => val / vector.sum))
  else Except.error MathError.typeError

/-- Membership test `value in range(lo, hi+1)` for a Python float `value`:
true exactly when `value` is integer-valued and `lo ≤ value ≤ hi`. -/
def inIntRange (value : ℚ) (lo hi : ℤ) : Bool :=
  value.den == 1 && decide (lo ≤ value.num) && decide (value.num ≤ hi)

/-- `morelib.math.remap` (four-number calling form): validates the ranges,
tests `value not in range(omin, omax+1)`, then applies the affine map. -/
def remap (value : ℚ) (omin omax dmin dmax : ℤ) : Except MathError ℚ :=
  if omax ≤ omin ∨ dmax ≤ dmin then Except.error MathError.valueError
  else if ¬ inIntRange value omin omax then Except.error MathError.valueError
  else
    Except.ok ((dmin : ℚ) + (value - (omin : ℚ)) / ((omax : ℚ) - (omin : ℚ))
      * ((dmax : ℚ) - (dmin : ℚ)))

/-- Python list indexing `l[i]`: non-negative indices from the front,
negative indices from the back; `none` models `IndexError`. -/
def pyGet {α : Type} (l : List α) (i : ℤ) : Option α :=
  if 0 ≤ i then l.get? i.toNat
  else if 0 ≤ i + (l.length : ℤ) then l.get? (i + (l.length : ℤ)).toNat
  else none

/-- Errors raised by `Biter.next` / `Biter.prev`: `StopIteration` at either
end, and `IndexError` from the `self._iter[self._pos]` lookup. -/
inductive IterError where
  | stopIteration
  | indexError
deriving DecidableEq

/-- `morelib.util.Biter`: the stored list `_iter`, the position `_pos`
(a Python `int`, so possibly negative) and the public `current` element. -/
structure Biter (α : Type) where
  iter : List α
  pos : ℤ
  current : α
deriving DecidableEq

/-- The `Biter` constructor: `current = iter[pos]`, `IndexError` if out of
range. -/
def Biter.make {α : Type} (l : List α) (pos : ℤ) : Option (Biter α) :=
  (pyGet l pos).map (fun c => ⟨l, pos, c⟩)

/-- Well-formedness maintained by the constructor and every successful move:
`current` is the element stored at `pos`. -/
def Biter.Wf {α : Type} (b : Biter α) : Prop :=
  pyGet b.iter b.pos = some b.current

/-- `Biter.next`: raises `StopIteration` when `pos + 1 ≥ len`, otherwise
moves to `pos + 1` and reloads `current`. -/
def Biter.next {α : Type} (b : Biter α) : Except IterError (Biter α) :=
  if (b.iter.length : ℤ) ≤ b.pos + 1 then Except.error IterError.stopIteration
  else
    match pyGet b.iter (b.pos + 1) with
    | some c => Except.ok ⟨b.iter, b.pos + 1, c⟩
    | none => Except.error IterError.indexError

/-- `Biter.prev`: raises `StopIteration` when `pos - 1 < 0`, otherwise moves
to `pos - 1` and reloads `current`. -/
def Biter.prev {α : Type} (b : Biter α) : Except IterError (Biter α) :=
  if b.pos - 1 < 0 then Except.error IterError.stopIteration
  else
    match pyGet b.iter (b.pos - 1) with
    | some c => Except.ok ⟨b.iter, b.pos - 1, c⟩
    | none => Except.error IterError.indexError

/-- `Biter.has_next`: `pos + 1 < len`. -/
def Biter.hasNext {α : Type} (b : Biter α) : Bool :=
  decide (b.pos + 1 < (b.iter.length : ℤ))

/-- `Biter.has_prev`: `pos - 1 ≥ 0`. -/
def Biter.hasPrev {α : Type} (b : Biter α) : Bool :=
  decide (0 ≤ b.pos - 1)

/-- `Biter.index`: returns `self._pos`. -/
def Biter.index {α : Type} (b : Biter α) : ℤ := b.pos

/-- A heap of Python list objects, addressed by position; models the mutable
list values that `djoin` can touch through `ret[key] += value`. -/
abbrev Heap := List (List ℤ)

/-- A Python dict as an insertion-ordered association of keys to heap
addresses of its (list) values. -/
abbrev PyDict (K : Type) := List (K × Nat)

/-- Dict lookup `ret[key]` on the association list (first binding wins;
Python dicts have unique keys). -/
def lookupRef {K : Type} [DecidableEq K] (ret : PyDict K) (k : K) : Option Nat :=
  (ret.find? (fun p => decide (p.1 = k))).map Prod.snd

/-- One iteration of `djoin`'s inner loop on binding `kv`: a fresh key is
bound to the same value object (`ret[key] = value`), a repeated key runs
`ret[key] += value`, which extends the list object already bound in `ret`
in place on the heap. -/
def djoinStep {K : Type} [DecidableEq K] (acc : PyDict K × Heap) (kv : K × Nat) :
    PyDict K × Heap :=
  match lookupRef acc.1 kv.1 with
  | none => (acc.1 ++ [kv], acc.2)
  | some r0 => (acc.1, acc.2.set r0 (acc.2.getD r0 [] ++ acc.2.getD kv.2 []))

/-- `morelib.util.djoin` with default join (`+=`), over the list
`each = [x, y, *args]` of dictionaries, with list-valued entries living on
`heap`.  Returns the new dict together with the heap after the call. -/
def djoin {K : Type} [DecidableEq K] (heap : Heap) (dicts : List (PyDict K)) :
    PyDict K × Heap :=
  dicts.foldl (fun acc d => d.foldl djoinStep acc) ([], heap)

/-- `morelib.util._DataItem`: an item with its count and cached weight; the
weight is `None` (`Option.none`) until `_weight_update` fills it in. -/
structure DataItem (α : Type) where
  item : α
  count : ℚ
  weight : Option ℚ
deriving DecidableEq

/-- `morelib.util.DataList`: the `_items` list and the cached `_total`. -/
structure DataList (α : Type) where
  items : List (DataItem α)
  total : ℚ
deriving DecidableEq

/-- The empty `DataList` (`_items = []`, `_total = 0`) the constructor
starts from. -/
def DataList.empty {α : Type} : DataList α := ⟨[], 0⟩

/-- Helper for `DataList.add`: bump the count of the first entry whose item
equals `a` (the `for ... break` search). -/
def bumpFirst {α : Type} [DecidableEq α] (a : α) (c : ℚ) :
    List (DataItem α) → List (DataItem α)
  | [] => []
  | d :: rest =>
    if d.item = a then { d with count := d.count + c } :: rest
    else d :: bumpFirst a c rest

/-- `DataList.add`: clamps a negative `init_count` to `0`, then either bumps
the first matching entry or appends a fresh `_DataItem` with weight `None`.
It does not recompute `_total` or any weight. -/
def DataList.add {α : Type} [DecidableEq α] (d : DataList α) (newItem : α)
    (initCount : ℚ) : DataList α :=
  let c := if initCount < 0 then 0 else initCount
  if d.items.any (fun x => decide (x.item = newItem)) then
    { d with items := bumpFirst newItem c d.items }
  else
    { d with items := d.items ++ [⟨newItem, c, none⟩] }

/-- `DataList._weight_update`: recomputes `_total` as the sum of counts and
sets every weight to `count / total`, or `0.0` when the division by a zero
total raises `ZeroDivisionError` (which the code catches). -/
def DataList.weightUpdate {α : Type} (d : DataList α) : DataList α :=
  let t := (d.items.map (fun x => x.count)).sum
  { items := d.items.map (fun x =>
      { x with weight := some (if t = 0 then 0 else x.count / t) }),
    total := t }

/-- One entry of the item collections `update` accepts: a `(element, count)`
tuple or a bare element (count `0.0`).  Dict and keyword arguments also
reduce to a sequence of such `(key, count)` additions. -/
inductive DLEntry (α : Type) where
  | pair (a : α) (c : ℚ)
  | raw (a : α)

/-- The `(item, count)` pair a `DLEntry` feeds to `DataList.add`. -/
def DLEntry.toAdd {α : Type} : DLEntry α → α × ℚ
  | .pair a c => (a, c)
  | .raw a => (a, 0)

/-- `DataList.update`: `_item_only_update` (a fold of `add` over the
entries) followed by `_weight_update`. -/
def DataList.update {α : Type} [DecidableEq α] (d : DataList α)
    (entries : List (DLEntry α)) : DataList α :=
  (entries.foldl (fun d e => d.add e.toAdd.1 e.toAdd.2) d).weightUpdate

/-- Helper for `DataList.subtract` with `cnt = None`: delete the first entry
matching `old` (the `del ... break` path). -/
def removeFirst {α : Type} [DecidableEq α] (old : α) :
    List (DataItem α) → List (DataItem α)
  | [] => []
  | d :: rest => if d.item = old then rest else d :: removeFirst old rest

/-- `DataList.subtract`: with a count, decrement every matching entry (the
loop does not break on this path); with `None`, delete the first matching
entry.  Ends with `_weight_update`. -/
def DataList.subtract {α : Type} [DecidableEq α] (d : DataList α) (old : α)
    (cnt : Option ℚ) : DataList α :=
  match cnt with
  | none => DataList.weightUpdate { d with items := removeFirst old d.items }
  | some c => DataList.weightUpdate
      { d with items := d.items.map (fun x =>
          if x.item = old then { x with count := x.count - c } else x) }

/-- `DataList.clear`: reset every count to `0.0`, then `_weight_update`. -/
def DataList.clear {α : Type} (d : DataList α) : DataList α :=
  DataList.weightUpdate
    { d with items := d.items.map (fun x => { x with count := 0 }) }

/-- Helper for `DataList.set`: overwrite the count of the first entry whose
item equals `key`. -/
def setFirst {α : Type} [DecidableEq α] (key : α) (v : ℚ) :
    List (DataItem α) → List (DataItem α)
  | [] => []
  | d :: rest =>
    if d.item = key then { d with count := v } :: rest
    else d :: setFirst key v rest

/-- `DataList.set`: clamps a negative value to `0`, overwrites the first
matching entry, and otherwise — when `key` is an `int` (`keyIsInt`) — falls
into the buggy fallback that assigns to the loop variable: on a non-empty
list this overwrites the LAST entry's count, on an empty list it raises
`NameError` (modelled as `Except.error`).  Every non-raising path ends with
`_weight_update`. -/
def DataList.set {α : Type} [DecidableEq α] (d : DataList α) (key : α) (value : ℚ)
    (keyIsInt : Bool) : Except Unit (DataList α) :=
  let v := if value < 0 then 0 else value
  if d.items.any (fun x => decide (x.item = key)) then
    Except.ok (DataList.weightUpdate { d with items := setFirst key v d.items })
  else if keyIsInt then
    match d.items.reverse with
    | [] => Except.error ()
    | lastItem :: revRest =>
      Except.ok (DataList.weightUpdate
        { d with items := (({ lastItem with count := v } : DataItem α) :: revRest).reverse })
  else
    Except.ok (DataList.weightUpdate d)

/-- `DataList.total`: returns the cached `_total`. -/
def DataList.totalCount {α : Type} (d : DataList α) : ℚ := d.total

/-- The invariant claimed for `DataList`: the cached total is the sum of the
counts, and every cached weight is `count / total` (`0.0` when the total is
zero). -/
def DLInv {α : Type} (d : DataList α) : Prop :=
  d.total = (d.items.map (fun x => x.count)).sum ∧
  ∀ x ∈ d.items, x.weight = some (if d.total = 0 then 0 else x.count / d.total)

instance {α : Type} [DecidableEq α] (d : DataList α) : Decidable (DLInv d) := by
  unfold DLInv; infer_instance

/-- The boolean comparison a Python `sorted(l, key=f)` call sorts by. -/
def keyLe {α K : Type} [LinearOrder K] (f : α → K) (a b : α) : Bool :=
  decide (f a ≤ f b)

/-- Python's `sorted(l, key=f)` (with `reverse=False`): a stable sort by the
key.  Stable sorting is extensionally unique, so the standard stable
`List.mergeSort` is a faithful model of Timsort here. -/
def pySorted {α K : Type} [LinearOrder K] (f : α → K) (l : List α) : List α :=
  l.mergeSort (keyLe f)

/-- The chain-building loop of `morelib.util.ranked`: walk the sorted list,
extending the current `chain` while the key value matches the previous
item, and starting a new chain when it changes. -/
def chainGroups {α K : Type} [LinearOrder K] (f : α → K) :
    α → List α → List α → List (List α)
  | _, chain, [] => [chain]
  | prev, chain, x :: xs =>
    if f x = f prev then chainGroups f x (chain ++ [x]) xs
    else chain :: chainGroups f x [x] xs

/-- `morelib.util.ranked` (with `cmpkey` defaulting to `key`): sort by the
key, then group adjacent items with equal key values.  On an empty list the
Python code raises `IndexError` at `sl[0]`; the `[]` result of this model
is never reached by the claims, which assume a non-empty input. -/
def ranked {α K : Type} [LinearOrder K] (f : α → K) (l : List α) : List (List α) :=
  match pySorted f l with
  | [] => []
  | x :: xs => chainGroups f x [x] xs

/-- `morelib.util.multisorted` with a list of keys and `reverse=False`:
rank by the first key, then recursively re-sort each group of more than
one item with the remaining keys (groups are kept as they are when no
keys remain).  The Python code raises `IndexError` on an empty key list;
the claims assume a non-empty one. -/
def multisorted {α K : Type} [LinearOrder K] : List (α → K) → List α → List α
  | [], _ => []
  | f :: rest, l =>
    ((ranked f l).map (fun g =>
      if 1 < g.length then
        if rest.isEmpty then g else multisorted rest g
      else g)).flatten

/-- Lexicographic comparison of the Python key tuples
`(f₁ a, …, fₙ a) ≤ (f₁ b, …, fₙ b)`. -/
def keysLe {α K : Type} [LinearOrder K] : List (α → K) → α → α → Bool
  | [], _, _ => true
  | f :: rest, a, b =>
    if f a < f b then true
    else if f b < f a then false
    else keysLe rest a b

/-- Equality of the Python key tuples `(f₁ a, …, fₙ a) = (f₁ b, …, fₙ b)`. -/
def eqKeys {α K : Type} [LinearOrder K] (ks : List (α → K)) (a b : α) : Bool :=
  ks.all (fun f => decide (f a = f b))

/-- `s` is the stable sort of `l` by `le`: a permutation, sorted, and each
equivalence class (`eqv`) appears in `s` as the same subsequence it forms
in `l`. -/
def IsStableSort {α : Type} (le eqv : α → α → Bool) (l s : List α) : Prop :=
  s.Perm l ∧ s.Pairwise (fun a b => le a b = true) ∧
  ∀ a, s.filter (eqv a) = l.filter (eqv a)

/-- Error values raised by the `random` module: `ValueError` from weight
validation, `NoItemsLeftException` from `choice`, and the latent
`ZeroDivisionError` / `IndexError` of `normalize` and `allowed[-1]`. -/
inductive RLError where
  | valueError
  | noItemsLeft
  | zeroDivision
  | indexError
deriving DecidableEq

/-- `morelib.random.RandomList`: the public `items` and `key` plus the
private state (`_stored_weights`, `_last`, `_no_repeat`, `_repeated_cache`,
`_always_age`, `_aging_coef`, `_backup`).  `repeatedAttr` models the
attribute `self.repeated` that `reset_repeated` creates — distinct from
`_repeated_cache`. -/
structure RandomList (α : Type) where
  items : List (α × ℚ)
  key : Option (α → ℚ)
  storedWeights : List ℚ
  last : List α
  noRepeat : Bool
  repeatedCache : List α
  alwaysAge : Bool
  agingCoef : ℚ
  backup : Option (List (α × ℚ))
  repeatedAttr : Option (List α)

/-- One entry of the single-argument constructor form: a `(object, weight)`
tuple/list, or a bare element whose weight comes from the key function, or
from the uniform `1/len` fallback. -/
inductive RLArg (α : Type) where
  | pairItem (a : α) (w : ℚ)
  | rawItem (a : α)

/-- The two construction forms the claims use: one list of entries, or two
lists (elements and weights). -/
inductive RLInit (α : Type) where
  | oneArg (l : List (RLArg α))
  | twoArgs (its : List α) (ws : List ℚ)

/-- The `zip_longest(items, weights)` loop of the two-list constructor
form: missing weights (`None or 0.0`) become `0.0`. -/
def zipWeights {α : Type} : List α → List ℚ → List (α × ℚ)
  | [], _ => []
  | a :: as_, [] => (a, 0) :: zipWeights as_ []
  | a :: as_, w :: ws => (a, w) :: zipWeights as_ ws

/-- The item list built by the `RandomList` constructor, together with the
surplus weights stored for future appends (`_stored_weights`). -/
def buildItems {α : Type} : RLInit α → Option (α → ℚ) → List (α × ℚ) × List ℚ
  | .oneArg l, key =>
    (l.map (fun e =>
      match e with
      | .pairItem a w => (a, w)
      | .rawItem a =>
        match key with
        | some k => (a, k a)
        | none => (a, 1 / (l.length : ℚ))), [])
  | .twoArgs its ws, _ => (zipWeights its (ws.take its.length), ws.drop its.length)

/-- The `RandomList` constructor: build the items, then check
`all(w >= 0 for w in self.weights())` and raise `ValueError` otherwise;
finally `configure(**kwargs)` records the flags (and a backup of the items
when `always_age` is set). -/
def mkRandomList {α : Type} (init : RLInit α) (key : Option (α → ℚ))
    (noRepeat alwaysAge : Bool) (agingCoef : ℚ) : Except RLError (RandomList α) :=
  let built := buildItems init key
  if built.1.all (fun p => decide (0 ≤ p.2)) then
    Except.ok
      { items := built.1, key := key, storedWeights := built.2, last := [],
        noRepeat := noRepeat, repeatedCache := [], alwaysAge := alwaysAge,
        agingCoef := agingCoef,
        backup := if alwaysAge then some built.1 else none,
        repeatedAttr := none }
  else Except.error RLError.valueError

/-- The weight `RandomList.append` resolves when none is given: the next
stored weight if any, else the key applied to the item, else `0.0`; paired
with the stored weights remaining afterwards. -/
def resolvedWeight {α : Type} (s : RandomList α) (item : α) (weight : Option ℚ) :
    ℚ × List ℚ :=
  match weight with
  | some w => (w, s.storedWeights)
  | none =>
    match s.storedWeights with
    | w :: ws => (w, ws)
    | [] =>
      match s.key with
      | some k => (k item, [])
      | none => (0, [])

/-- `RandomList.append`: resolve the weight, raise `ValueError` when it is
negative, append the `[item, weight]` pair, and re-run `configure()`
(which refreshes the aging backup when `always_age` is on). -/
def RandomList.append {α : Type} (s : RandomList α) (item : α) (weight : Option ℚ) :
    Except RLError (RandomList α) :=
  let wr := resolvedWeight s item weight
  if wr.1 < 0 then Except.error RLError.valueError
  else
    Except.ok
      { s with
        items := s.items ++ [(item, wr.1)],
        storedWeights := wr.2,
        backup := if s.alwaysAge then some (s.items ++ [(item, wr.1)])
                  else s.backup }

/-- `RandomList.normalize`: divide every weight by their sum.  The loop body
raises `ZeroDivisionError` (`none`) when the list is non-empty and the sum
is zero; on an empty list the loop never runs. -/
def RandomList.normalize {α : Type} (s : RandomList α) : Option (RandomList α) :=
  let suma := (s.items.map (fun p => p.2)).sum
  if s.items.isEmpty then some s
  else if suma = 0 then none
  else some { s with items := s.items.map (fun p => (p.1, p.2 / suma)) }

/-- `RandomList.age`: multiply the weight of every item whose element is not
among the last chosen by `_aging_coef`, then `normalize`. -/
def RandomList.age {α : Type} [DecidableEq α] (s : RandomList α) :
    Option (RandomList α) :=
  RandomList.normalize
    { s with items := s.items.map (fun p =>
        if p.1 ∈ s.last then p else (p.1, p.2 * s.agingCoef)) }

/-- `RandomList.reset_repeated`: assigns a fresh list to `self.repeated` — a
new attribute, not the `_repeated_cache` that `choice` consults. -/
def RandomList.resetRepeated {α : Type} (s : RandomList α) : RandomList α :=
  { s with repeatedAttr := some ([] : List α) }

/-- The randomness one draw of `choice` consumes: the in-place
`random.shuffle` of the allowed list (an arbitrary function; theorems
assume it permutes its input) and the `random.uniform(0.0, total_weight)`
sample. -/
structure DrawRand (α : Type) where
  shuffle : List (α × ℚ) → List (α × ℚ)
  rnd : ℚ

/-- The cumulative-weight scan of `choice`: `rmax` accumulates the weights
and the first element with `rmin <= rndval < rmax` is chosen (`rmin` stays
`0.0` throughout, as in the code). -/
def pickLoop {α : Type} (rndval : ℚ) : ℚ → List (α × ℚ) → Option α
  | _, [] => none
  | rmax, (a, w) :: rest =>
    let rmax' := rmax + w
    if 0 ≤ rndval ∧ rndval < rmax' then some a
    else pickLoop rndval rmax' rest

/-- One iteration of the `choice` loop: filter out zero weights, filter out
repeated elements when `no_repeat` is in force, raise
`NoItemsLeftException` when nothing is left, otherwise shuffle and scan;
the `for ... else` fallback picks `allowed[-1][0]`. -/
def drawOne {α : Type} [DecidableEq α] (s : RandomList α) (noRep : Bool)
    (repeated : List α) (r : DrawRand α) : Except RLError α :=
  let allowed0 := s.items.filter (fun x => decide (0 < x.2))
  let allowed := if noRep then allowed0.filter (fun x => decide (x.1 ∉ repeated))
                 else allowed0
  if allowed.isEmpty then Except.error RLError.noItemsLeft
  else
    let sh := r.shuffle allowed
    match pickLoop r.rnd 0 sh with
    | some a => Except.ok a
    | none =>
      match sh.getLast? with
      | some e => Except.ok e.1
      | none => Except.error RLError.indexError

/-- The `for _ in range(k)` loop of `choice`, carrying the accumulated
`choices`, the `repeated` list (an alias of `_repeated_cache`) and the
evolving state (`_last` is rewritten each draw; aging runs when `age` is
in force, its `ZeroDivisionError` propagating). -/
def choiceLoop {α : Type} [DecidableEq α] (noRep ag : Bool) (rand : Nat → DrawRand α) :
    Nat → Nat → RandomList α → List α → List α →
    Except RLError (List α × List α × RandomList α)
  | _, 0, s, choices, repeated => Except.ok (choices, repeated, s)
  | i, n + 1, s, choices, repeated =>
    match drawOne s noRep repeated (rand i) with
    | Except.error e => Except.error e
    | Except.ok c =>
      let choices' := choices ++ [c]
      let s' : RandomList α := { s with last := choices' }
      let repeated' := if noRep then repeated ++ [c] else repeated
      if ag then
        match s'.age with
        | some t => choiceLoop noRep ag rand (i + 1) n t choices' repeated'
        | none => Except.error RLError.zeroDivision
      else choiceLoop noRep ag rand (i + 1) n s' choices' repeated'

/-- `RandomList.choice`: the effective `no_repeat` / `age` flags are the
arguments or-ed with the global configuration; `repeated` starts as the
(aliased) `_repeated_cache`, so its appends reach the cache, and the final
`self._repeated_cache += repeated` under global `no_repeat` doubles it. -/
def RandomList.choice {α : Type} [DecidableEq α] (s : RandomList α) (k : Nat)
    (noRepArg ageArg : Bool) (rand : Nat → DrawRand α) :
    Except RLError (List α × RandomList α) :=
  let noRep := noRepArg || s.noRepeat
  let ag := ageArg || s.alwaysAge
  match choiceLoop noRep ag rand 0 k s [] s.repeatedCache with
  | Except.error e => Except.error e
  | Except.ok r =>
    let cache' := if s.noRepeat then r.2.1 ++ r.2.1 else r.2.1
    Except.ok (r.1, { r.2.2 with repeatedCache := cache' })

/-- The values `choice` can still return under `no_repeat`: elements
holding a strictly positive weight that are not yet in the repeated list. -/
def availSet {α : Type} [DecidableEq α] (items : List (α × ℚ)) (repeated : List α) :
    Finset α :=
  ((items.filter (fun p => decide (0 < p.2))).map Prod.fst).toFinset \
    repeated.toFinset

/-- The aged (pre-normalization) weight of an entry of `items`: multiplied
by the aging coefficient exactly when its element is not among the last
chosen. -/
def agedWeight {α : Type} [DecidableEq α] (s : RandomList α) (p : α × ℚ) : ℚ :=
  if p.1 ∈ s.last then p.2 else p.2 * s.agingCoef

/-- Concrete `Biter` over `[10, 20]` built with position `-1` (Python's
index of the last element), used to refute the next/prev round trip. -/
def biterCex : Biter ℤ := ⟨[10, 20], -1, 20⟩

/-- Concrete `DataList` obtained by a bare `add` on an empty list. -/
def dlAddCex : DataList ℕ := DataList.empty.add 0 1

/-- Concrete `RandomList` with two unit-weight items where `0` was the last
chosen, used to witness the aging specification. -/
def rlAgeWitState : RandomList ℕ :=
  { items := [(0, 1), (1, 1)], key := none, storedWeights := [], last := [0],
    noRepeat := false, repeatedCache := [], alwaysAge := false, agingCoef := 2,
    backup := none, repeatedAttr := none }

/-- Concrete `RandomList` under global `no_repeat` whose only
positive-weight element is already in the repeated cache. -/
def rlExhausted : RandomList ℕ :=
  { items := [(0, 1)], key := none, storedWeights := [], last := [],
    noRepeat := true, repeatedCache := [0], alwaysAge := false, agingCoef := 2,
    backup := none, repeatedAttr := none }

/-- Concrete `RandomList` with two unit-weight items and an empty repeated
cache, used to witness the `choice` specification. -/
def rlChoiceWitState : RandomList ℕ :=
  { items := [(0, 1), (1, 1)], key := none, storedWeights := [], last := [],
    noRepeat := true, repeatedCache := [], alwaysAge := false, agingCoef := 2,
    backup := none, repeatedAttr := none }

/-- A trivial randomness oracle: the identity shuffle and sample `0`. -/
def idRand : Nat → DrawRand ℕ := fun _ => ⟨id, 0⟩

/- ------------------------------------------------------------------ -/
/- Theorems                                                           -/
/- ------------------------------------------------------------------ -/

/-- C10: `math.normalize` has no zero-sum guard: every non-empty vector of
non-negative entries summing to zero raises `ZeroDivisionError`, while the
empty vector returns the empty list. -/
theorem mathNormalize_zero_sum_behavior (v : List ℚ) (hnn : ∀ x ∈ v, 0 ≤ x) :
    (v ≠ [] → v.sum = 0 → mathNormalize v = Except.error MathError.zeroDivisionError) ∧
    mathNormalize ([] : List ℚ) = Except.ok ([] : List ℚ) := by
  constructor
  · intro hne hsum
    have hall : v.all (fun n => decide (0 ≤ n)) = true := by
      simp only [List.all_eq_true, decide_eq_true_eq]
      exact hnn
    have hnil : v.isEmpty = false := by
      cases v with
      | nil => exact absurd rfl hne
      | cons a t => rfl
    simp [mathNormalize, hall, hnil, hsum]
  · rfl

/-- Witness for C10 at `v = [0, 0]`. -/
theorem mathNormalize_zero_sum_behavior_witness :
    mathNormalize [(0 : ℚ), 0] = Except.error MathError.zeroDivisionError :=
  (mathNormalize_zero_sum_behavior [(0 : ℚ), 0] (by decide)).1
    (by simp) (by norm_num)

/-- C9: `remap` tests range membership with `range(omin, omax+1)`, so every
value with a non-zero fractional part (denominator ≠ 1) raises
`ValueError`, and a successful remap happens only for integer-valued
inputs lying within the original range, returning the affine image. -/
theorem remap_integer_gate (value : ℚ) (omin omax dmin dmax : ℤ) :
    (value.den ≠ 1 → remap value omin omax dmin dmax = Except.error MathError.valueError) ∧
    (∀ q, remap value omin omax dmin dmax = Except.ok q →
      value.den = 1 ∧ omin ≤ value.num ∧ value.num ≤ omax ∧
      q = (dmin : ℚ) + (value - (omin : ℚ)) / ((omax : ℚ) - (omin : ℚ))
        * ((dmax : ℚ) - (dmin : ℚ))) := by
  constructor
  · intro hden
    have hmem : inIntRange value omin omax = false := by
      simp only [inIntRange, Bool.and_eq_false_iff]
      left; left
      simpa [beq_iff_eq] using hden
    unfold remap
    by_cases h : omax ≤ omin ∨ dmax ≤ dmin
    · simp [h]
    · simp [h, hmem]
  · intro q hq
    unfold remap at hq
    by_cases h : omax ≤ omin ∨ dmax ≤ dmin
    · simp [h] at hq
    · by_cases hmem : inIntRange value omin omax = true
      · have := hmem
        simp only [inIntRange, Bool.and_eq_true, beq_iff_eq, decide_eq_true_eq] at this
        simp [h, hmem] at hq
        exact ⟨this.1.1, this.1.2, this.2, hq.symm⟩
      · simp [h, hmem] at hq

/-- Witness for C9: `remap(7/2, 1, 5, 0, 10)` raises `ValueError`, and
`remap(3, 1, 5, 0, 10)` succeeds on the integer input `3`. -/
theorem remap_integer_gate_witness :
    remap ((7 : ℚ) / 2) 1 5 0 10 = Except.error MathError.valueError :=
  (remap_integer_gate ((7 : ℚ) / 2) 1 5 0 10).1 (by norm_num [Rat.den_div_eq_of_coprime])

/-- `pyGet` at a non-negative index is plain list lookup. -/
theorem pyGet_nonneg {α : Type} (l : List α) (i : ℤ) (h : 0 ≤ i) :
    pyGet l i = l.get? i.toNat := by
  simp [pyGet, h]

/-- C7 (counterexample): the `Biter` over `[10, 20]` constructed at Python
position `-1` is well formed and has `has_next()` true, yet `next()`
followed by `prev()` raises `StopIteration` instead of restoring the
original position and `current`. -/
theorem biter_next_prev_not_inverse :
    biterCex.Wf ∧ biterCex.hasNext = true ∧
    biterCex.next.bind Biter.prev = Except.error IterError.stopIteration :=
  ⟨rfl, by decide, rfl⟩

/-- C7 (amended): on every well-formed `Biter` at a non-negative position,
`next()` then `prev()` restores the iterator exactly (position, `current`
and all), and symmetrically `prev()` then `next()`. -/
theorem biter_next_prev_inverse {α : Type} (b : Biter α) (hwf : b.Wf)
    (hpos : 0 ≤ b.pos) :
    (b.hasNext = true → ∃ b', b.next = Except.ok b' ∧ b'.prev = Except.ok b) ∧
    (b.hasPrev = true → ∃ b', b.prev = Except.ok b' ∧ b'.next = Except.ok b) := by
  obtain ⟨iter, pos, cur⟩ := b
  simp only [Biter.Wf] at hwf
  simp only at hpos
  rw [pyGet_nonneg _ _ hpos] at hwf
  have hlt : pos.toNat < iter.length := (List.get?_eq_some.mp hwf).1
  constructor
  · intro hnext
    simp only [Biter.hasNext, decide_eq_true_eq] at hnext
    have hne : ¬ ((iter.length : ℤ) ≤ pos + 1) := not_le.mpr hnext
    have h1 : (0 : ℤ) ≤ pos + 1 := by omega
    have hlt1 : (pos + 1).toNat < iter.length := by omega
    have hc := List.get?_eq_get hlt1
    refine ⟨⟨iter, pos + 1, iter.get ⟨(pos + 1).toNat, hlt1⟩⟩, ?_, ?_⟩
    · simp only [Biter.next, hne, if_false]
      rw [pyGet_nonneg _ _ h1, hc]
    · have hge : ¬ (pos + 1 - 1 < 0) := by omega
      simp only [Biter.prev, hge, if_false]
      have : pos + 1 - 1 = pos := by omega
      rw [this, pyGet_nonneg _ _ hpos, hwf]
  · intro hprev
    simp only [Biter.hasPrev, decide_eq_true_eq] at hprev
    have hge : ¬ (pos - 1 < 0) := by omega
    have h1 : (0 : ℤ) ≤ pos - 1 := by omega
    have hlt1 : (pos - 1).toNat < iter.length := by omega
    have hc := List.get?_eq_get hlt1
    refine ⟨⟨iter, pos - 1, iter.get ⟨(pos - 1).toNat, hlt1⟩⟩, ?_, ?_⟩
    · simp only [Biter.prev, hge, if_false]
      rw [pyGet_nonneg _ _ h1, hc]
    · have hne : ¬ ((iter.length : ℤ) ≤ pos - 1 + 1) := by omega
      simp only [Biter.next, hne, if_false]
      have : pos - 1 + 1 = pos := by omega
      rw [this, pyGet_nonneg _ _ hpos, hwf]

/-- Witness for the amended C7 at the `Biter` over `[10, 20]` at position
`0`. -/
theorem biter_next_prev_inverse_witness :
    ∃ b', (Biter.mk [(10 : ℤ), 20] 0 10).next = Except.ok b' ∧
      b'.prev = Except.ok (Biter.mk [(10 : ℤ), 20] 0 10) :=
  (biter_next_prev_inverse ⟨[(10 : ℤ), 20], 0, 10⟩ rfl (by decide)).1
    (by decide)

/-- C5 (counterexample): joining `x = {0: [1]}` and `y = {0: [2]}` runs
`ret[key] += value` on the shared key, which extends in place the very
list object `x` maps to: the heap cell behind `x[0]` changes from `[1]`
to `[1, 2]`. -/
theorem djoin_mutates_shared_value :
    (djoin ([[1], [2]] : Heap) [[((0 : ℕ), 0)], [((0 : ℕ), 1)]]).2 = [[1, 2], [2]] ∧
    (djoin ([[1], [2]] : Heap) [[((0 : ℕ), 0)], [((0 : ℕ), 1)]]).2 ≠ [[1], [2]] :=
  ⟨rfl, by decide⟩

/-- A key absent from the bindings makes `lookupRef` return `none`. -/
theorem lookupRef_eq_none {K : Type} [DecidableEq K] (ret : PyDict K) (k : K)
    (h : k ∉ ret.map Prod.fst) : lookupRef ret k = none := by
  unfold lookupRef
  rw [List.find?_eq_none.mpr]
  · rfl
  · intro p hp
    simp only [decide_eq_true_eq]
    intro hk
    exact h (List.mem_map.mpr ⟨p, hp, hk⟩)

/-- The inner `djoin` loop over one dictionary, when its keys are fresh:
every binding is appended unchanged and the heap is untouched. -/
theorem djoin_inner {K : Type} [DecidableEq K] (d : PyDict K) :
    ∀ (ret : PyDict K) (heap : Heap),
      (ret.map Prod.fst ++ d.map Prod.fst).Nodup →
      d.foldl djoinStep (ret, heap) = (ret ++ d, heap) := by
  induction d with
  | nil => intro ret heap _; simp
  | cons kv rest ih =>
    intro ret heap hnd
    have hfresh : kv.1 ∉ ret.map Prod.fst := by
      rw [List.nodup_append] at hnd
      intro hmem
      exact hnd.2.2 hmem (by simp)
    have hstep : djoinStep (ret, heap) kv = (ret ++ [kv], heap) := by
      simp [djoinStep, lookupRef_eq_none ret kv.1 hfresh]
    rw [List.foldl_cons, hstep, ih (ret ++ [kv]) heap]
    · simp
    · simp only [List.map_append, List.map_cons, List.map_nil] at hnd ⊢
      simpa [List.append_assoc] using hnd

/-- The outer `djoin` fold with an accumulated result `ret`. -/
theorem djoin_foldl_spec {K : Type} [DecidableEq K] (dicts : List (PyDict K)) :
    ∀ (ret : PyDict K) (heap : Heap),
      (ret.map Prod.fst ++ (dicts.map (fun d => d.map Prod.fst)).flatten).Nodup →
      dicts.foldl (fun acc d => d.foldl djoinStep acc) (ret, heap) =
        (ret ++ dicts.flatten, heap) := by
  induction dicts with
  | nil => intro ret heap _; simp
  | cons d ds ih =>
    intro ret heap hnd
    simp only [List.map_cons, List.flatten_cons] at hnd
    have h1 : (ret.map Prod.fst ++ d.map Prod.fst).Nodup := by
      rw [← List.append_assoc] at hnd
      exact hnd.of_append_left
    rw [List.foldl_cons, djoin_inner d ret heap h1, ih (ret ++ d) heap]
    · simp
    · simpa [List.append_assoc] using hnd

/-- C5 (amended): `djoin` builds a fresh dictionary and never rebinds the
keys of its arguments; when the dictionaries have no key in common the
`+=` branch is never taken, so every value object — the heap — is left
unchanged and the result simply concatenates the bindings.  (On a shared
key the in-place `+=` mutates the first value object, as the
counterexample shows.) -/
theorem djoin_disjoint_keys_frame {K : Type} [DecidableEq K] (heap : Heap)
    (dicts : List (PyDict K))
    (h : ((dicts.map (fun d => d.map Prod.fst)).flatten).Nodup) :
    djoin heap dicts = (dicts.flatten, heap) := by
  unfold djoin
  rw [djoin_foldl_spec dicts [] heap (by simpa using h)]
  simp

/-- Witness for the amended C5 on `x = {0: [5]}`, `y = {1: [7]}`. -/
theorem djoin_disjoint_keys_frame_witness :
    djoin ([[5], [7]] : Heap) [[((0 : ℕ), 0)], [((1 : ℕ), 1)]] =
      ([((0 : ℕ), 0), ((1 : ℕ), 1)], [[5], [7]]) :=
  djoin_disjoint_keys_frame ([[5], [7]] : Heap) [[((0 : ℕ), 0)], [((1 : ℕ), 1)]]
    (by decide)

/-- `_weight_update` establishes the count/weight/total invariant. -/
theorem DLInv_weightUpdate {α : Type} (d : DataList α) : DLInv d.weightUpdate := by
  unfold DLInv DataList.weightUpdate
  constructor
  · simp only [List.map_map]
    rfl
  · intro x hx
    simp only [List.mem_map] at hx
    obtain ⟨y, _, rfl⟩ := hx
    rfl

/-- C4 (counterexample): a bare `add` on an empty `DataList` appends the
item but recomputes neither `_total` nor any weight: the invariant fails
(`total()` is `0` while the counts sum to `1`, and the new weight is
`None`). -/
theorem datalist_add_breaks_invariant : ¬ DLInv dlAddCex := by
  intro h
  have h1 := h.1
  norm_num [dlAddCex, DataList.empty, DataList.add, DLInv] at h1

/-- C4 (amended): after `update`, `subtract`, `clear` and every
non-raising `set`, each stored item's weight is `count / total` (`0.0`
when the total is zero) and `total()` equals the sum of the counts; `add`
alone does not restore this invariant, as the counterexample shows. -/
theorem datalist_invariant_after_ops {α : Type} [DecidableEq α] (d : DataList α)
    (entries : List (DLEntry α)) (old key : α) (cnt : Option ℚ) (value : ℚ)
    (keyIsInt : Bool) :
    DLInv (d.update entries) ∧ DLInv (d.subtract old cnt) ∧ DLInv d.clear ∧
    ∀ d', d.set key value keyIsInt = Except.ok d' → DLInv d' := by
  refine ⟨DLInv_weightUpdate _, ?_, DLInv_weightUpdate _, ?_⟩
  · cases cnt with
    | none => exact DLInv_weightUpdate _
    | some c => exact DLInv_weightUpdate _
  · intro d' h
    simp only [DataList.set] at h
    split at h
    · exact (Except.ok.inj h) ▸ DLInv_weightUpdate _
    · split at h
      · split at h
        · exact absurd h (by simp)
        · exact (Except.ok.inj h) ▸ DLInv_weightUpdate _
      · exact (Except.ok.inj h) ▸ DLInv_weightUpdate _

/-- Witness for the amended C4: updating the empty list with one counted
item satisfies the invariant. -/
theorem datalist_invariant_after_ops_witness :
    DLInv ((DataList.empty : DataList ℕ).update [DLEntry.pair 0 2]) :=
  (datalist_invariant_after_ops (DataList.empty : DataList ℕ) [DLEntry.pair 0 2]
    0 0 none 0 false).1

/-- C6: any negative weight among the built items makes the `RandomList`
constructor raise `ValueError`; `append` raises `ValueError` whenever the
resolved weight (explicit, stored, or key-generated) is negative; and a
construction or append that succeeds stores only non-negative weights. -/
theorem randomlist_weight_validation {α : Type} (init : RLInit α)
    (key : Option (α → ℚ)) (noRepeat alwaysAge : Bool) (coef : ℚ)
    (s : RandomList α) (item : α) (w? : Option ℚ) :
    ((∃ p ∈ (buildItems init key).1, p.2 < 0) →
      mkRandomList init key noRepeat alwaysAge coef = Except.error RLError.valueError) ∧
    (∀ t, mkRandomList init key noRepeat alwaysAge coef = Except.ok t →
      ∀ p ∈ t.items, 0 ≤ p.2) ∧
    ((resolvedWeight s item w?).1 < 0 →
      s.append item w? = Except.error RLError.valueError) ∧
    (∀ t, s.append item w? = Except.ok t → (∀ p ∈ s.items, 0 ≤ p.2) →
      ∀ p ∈ t.items, 0 ≤ p.2) := by
  refine ⟨?_, ?_, ?_, ?_⟩
  · rintro ⟨p, hp, hneg⟩
    have hall : ((buildItems init key).1.all (fun p => decide (0 ≤ p.2))) = false := by
      rw [Bool.eq_false_iff]
      intro hcontra
      rw [List.all_eq_true] at hcontra
      have := hcontra p hp
      rw [decide_eq_true_eq] at this
      exact absurd this (not_le.mpr hneg)
    unfold mkRandomList
    simp [hall]
  · intro t ht
    simp only [mkRandomList] at ht
    by_cases hall : ((buildItems init key).1.all (fun p => decide (0 ≤ p.2))) = true
    · rw [if_pos hall] at ht
      rw [List.all_eq_true] at hall
      injection ht with ht'
      subst ht'
      intro p hp
      exact decide_eq_true_eq.mp (hall p hp)
    · rw [if_neg hall] at ht
      cases ht
  · intro hneg
    simp only [RandomList.append]
    rw [if_pos hneg]
  · intro t ht hnn
    simp only [RandomList.append] at ht
    by_cases hneg : (resolvedWeight s item w?).1 < 0
    · rw [if_pos hneg] at ht
      cases ht
    · rw [if_neg hneg] at ht
      injection ht with ht'
      subst ht'
      intro p hp
      simp only [List.mem_append, List.mem_singleton] at hp
      rcases hp with hp | hp
      · exact hnn p hp
      · subst hp
        exact le_of_not_lt hneg

/-- Witness for C6: constructing from `[(0, -1)]` raises `ValueError`, and
appending weight `-1` to an existing list raises `ValueError`. -/
theorem randomlist_weight_validation_witness :
    mkRandomList (RLInit.oneArg [RLArg.pairItem (0 : ℕ) (-1)]) none false false 2 =
      Except.error RLError.valueError :=
  (randomlist_weight_validation (RLInit.oneArg [RLArg.pairItem (0 : ℕ) (-1)]) none
    false false 2 rlExhausted 0 none).1 ⟨(0, -1), by simp [buildItems], by norm_num⟩

/-- Dividing every entry of a list by `c` divides its sum by `c`. -/
theorem sum_map_div (l : List ℚ) (c : ℚ) :
    (l.map (fun x => x / c)).sum = l.sum / c := by
  induction l with
  | nil => simp
  | cons a t ih => simp [ih, add_div]

/-- C2: on a `RandomList` with non-negative weights, at least one of them
positive, and a positive aging coefficient, `age()` multiplies the weight
of every item not among the last chosen by the coefficient and rescales
everything by the (positive) total so the weights sum to `1`; a
last-chosen item's weight is only rescaled, so an unchosen item's weight
relative to a last-chosen one's is multiplied by the coefficient. -/
theorem randomlist_age_spec {α : Type} [DecidableEq α] (s : RandomList α)
    (hnn : ∀ p ∈ s.items, 0 ≤ p.2) (hpos : ∃ p ∈ s.items, 0 < p.2)
    (hcoef : 0 < s.agingCoef) :
    ∃ s', s.age = some s' ∧
      0 < (s.items.map (agedWeight s)).sum ∧
      s'.items = s.items.map
        (fun p => (p.1, agedWeight s p / (s.items.map (agedWeight s)).sum)) ∧
      (s'.items.map (fun p => p.2)).sum = 1 ∧
      ∀ p ∈ s.items, ∀ q ∈ s.items, p.1 ∉ s.last → q.1 ∈ s.last →
        (agedWeight s p / (s.items.map (agedWeight s)).sum) * q.2 =
          (p.2 * s.agingCoef) * (agedWeight s q / (s.items.map (agedWeight s)).sum) := by
  obtain ⟨p0, hp0, hp0pos⟩ := hpos
  have haged_nn : ∀ p ∈ s.items, 0 ≤ agedWeight s p := by
    intro p hp
    unfold agedWeight
    split
    · exact hnn p hp
    · exact mul_nonneg (hnn p hp) (le_of_lt hcoef)
  have haged_pos : 0 < agedWeight s p0 := by
    unfold agedWeight
    split
    · exact hp0pos
    · exact mul_pos hp0pos hcoef
  have hS : 0 < (s.items.map (agedWeight s)).sum := by
    have hmem : agedWeight s p0 ∈ s.items.map (agedWeight s) :=
      List.mem_map.mpr ⟨p0, hp0, rfl⟩
    have hle : agedWeight s p0 ≤ (s.items.map (agedWeight s)).sum := by
      apply List.single_le_sum
      · intro x hx
        obtain ⟨q, hq, rfl⟩ := List.mem_map.mp hx
        exact haged_nn q hq
      · exact hmem
    exact lt_of_lt_of_le haged_pos hle
  have hmap2 : ∀ (p : α × ℚ),
      ((if p.1 ∈ s.last then p else (p.1, p.2 * s.agingCoef)) : α × ℚ).2 =
        agedWeight s p := by
    intro p
    unfold agedWeight
    split <;> simp_all
  have hmap1 : ∀ (p : α × ℚ),
      ((if p.1 ∈ s.last then p else (p.1, p.2 * s.agingCoef)) : α × ℚ).1 = p.1 := by
    intro p
    split <;> simp_all
  set S := (s.items.map (agedWeight s)).sum with hSdef
  set f : α × ℚ → α × ℚ :=
    fun p => if p.1 ∈ s.last then p else (p.1, p.2 * s.agingCoef) with hf
  have hSne : S ≠ 0 := ne_of_gt hS
  have hne : s.items ≠ [] := by
    intro h
    rw [h] at hp0
    exact (List.not_mem_nil p0) hp0
  have hsum_eq : ((s.items.map f).map (fun p => p.2)).sum = S := by
    rw [List.map_map, hSdef]
    exact congrArg List.sum (List.map_congr_left (fun p _ => hmap2 p))
  have hempty : (s.items.map f).isEmpty = false := by
    rcases hi : s.items with _ | ⟨a, t⟩
    · exact absurd hi hne
    · rfl
  simp only [RandomList.age, RandomList.normalize]
  rw [← hf, hempty, hsum_eq]
  simp only [Bool.false_eq_true, if_false]
  rw [if_neg hSne]
  refine ⟨_, rfl, hS, ?_, ?_, ?_⟩
  · show (s.items.map f).map (fun p => (p.1, p.2 / S)) =
      s.items.map (fun p => (p.1, agedWeight s p / S))
    rw [List.map_map]
    apply List.map_congr_left
    intro p hp
    show ((f p).1, (f p).2 / S) = (p.1, agedWeight s p / S)
    rw [hmap1 p, hmap2 p]
  · show ((((s.items.map f).map (fun p => (p.1, p.2 / S)))).map
      (fun p => p.2)).sum = 1
    have heq : (((s.items.map f).map (fun p => (p.1, p.2 / S))).map
        (fun p => p.2)) = (s.items.map (agedWeight s)).map (fun x => x / S) := by
      rw [List.map_map, List.map_map, List.map_map]
      apply List.map_congr_left
      intro p _
      show (f p).2 / S = agedWeight s p / S
      rw [hmap2 p]
    rw [heq, sum_map_div, ← hSdef, div_self hSne]
  · intro p hp q hq hpl hql
    have hq2 : agedWeight s q = q.2 := by
      unfold agedWeight
      simp [hql]
    have hp2 : agedWeight s p = p.2 * s.agingCoef := by
      unfold agedWeight
      simp [hpl]
    rw [hq2, hp2]
    ring

/-- Witness for C2 on a two-item list with `0` last chosen and the default
coefficient `2`. -/
theorem randomlist_age_spec_witness :
    ∃ s', rlAgeWitState.age = some s' ∧
      0 < (rlAgeWitState.items.map (agedWeight rlAgeWitState)).sum ∧
      s'.items = rlAgeWitState.items.map
        (fun p => (p.1,
          agedWeight rlAgeWitState p /
            (rlAgeWitState.items.map (agedWeight rlAgeWitState)).sum)) ∧
      (s'.items.map (fun p => p.2)).sum = 1 ∧
      ∀ p ∈ rlAgeWitState.items, ∀ q ∈ rlAgeWitState.items,
        p.1 ∉ rlAgeWitState.last → q.1 ∈ rlAgeWitState.last →
          (agedWeight rlAgeWitState p /
              (rlAgeWitState.items.map (agedWeight rlAgeWitState)).sum) * q.2 =
            (p.2 * rlAgeWitState.agingCoef) *
              (agedWeight rlAgeWitState q /
                (rlAgeWitState.items.map (agedWeight rlAgeWitState)).sum) :=
  randomlist_age_spec rlAgeWitState (by decide)
    ⟨(0, 1), by simp [rlAgeWitState], by norm_num⟩ (by norm_num [rlAgeWitState])

/-- C8: `reset_repeated` writes a fresh list to the attribute
`self.repeated`, leaving `_repeated_cache` — the list `choice` consults —
unchanged; hence under global `no_repeat`, once every positive-weight
element is in the cache, `choice` still raises `NoItemsLeftException`
after `reset_repeated()`. -/
theorem drawOne_exhausted {α : Type} [DecidableEq α] (t : RandomList α)
    (repeated : List α) (r : DrawRand α)
    (hexh : ∀ p ∈ t.items, 0 < p.2 → p.1 ∈ repeated) :
    drawOne t true repeated r = Except.error RLError.noItemsLeft := by
  have hallow : ((t.items.filter (fun x => decide (0 < x.2))).filter
      (fun x => decide (x.1 ∉ repeated))) = [] := by
    rw [List.filter_eq_nil_iff]
    intro x hx
    have hx' := List.mem_filter.mp hx
    simp only [decide_eq_true_eq] at hx' ⊢
    intro hnotin
    exact hnotin (hexh x hx'.1 hx'.2)
  simp only [drawOne]
  rw [hallow]
  rfl

/-- Under effective `no_repeat`, a `choice` loop starting from a repeated
list that already contains every positive-weight element fails at the
first draw with `NoItemsLeftException`. -/
theorem choiceLoop_exhausted {α : Type} [DecidableEq α] (ag : Bool)
    (rand : Nat → DrawRand α) (i n : ℕ) (t : RandomList α)
    (choices repeated : List α)
    (hexh : ∀ p ∈ t.items, 0 < p.2 → p.1 ∈ repeated) :
    choiceLoop true ag rand i (n + 1) t choices repeated =
      Except.error RLError.noItemsLeft := by
  simp only [choiceLoop]
  rw [drawOne_exhausted t repeated (rand i) hexh]

/-- C8: `reset_repeated` writes a fresh list to the attribute
`self.repeated`, leaving `_repeated_cache` — the list `choice` consults —
unchanged; hence under global `no_repeat`, once every positive-weight
element is in the cache, `choice` still raises `NoItemsLeftException`
after `reset_repeated()`. -/
theorem resetRepeated_keeps_cache {α : Type} [DecidableEq α] (s : RandomList α)
    (k : ℕ) (rand : ℕ → DrawRand α) (hk : 1 ≤ k) (hno : s.noRepeat = true)
    (hexh : ∀ p ∈ s.items, 0 < p.2 → p.1 ∈ s.repeatedCache) :
    (s.resetRepeated).repeatedCache = s.repeatedCache ∧
    (s.resetRepeated).choice k false false rand = Except.error RLError.noItemsLeft := by
  refine ⟨rfl, ?_⟩
  obtain ⟨n, rfl⟩ : ∃ n, k = n + 1 := ⟨k - 1, by omega⟩
  have hno' : (s.resetRepeated).noRepeat = true := hno
  simp only [RandomList.choice, hno', Bool.or_true, Bool.false_or]
  rw [choiceLoop_exhausted ((s.resetRepeated).alwaysAge) rand 0 n
    (s.resetRepeated) [] ((s.resetRepeated).repeatedCache) hexh]

/-- Witness for C8 on a one-item list whose element is already cached. -/
theorem resetRepeated_keeps_cache_witness :
    (rlExhausted.resetRepeated).repeatedCache = rlExhausted.repeatedCache ∧
    (rlExhausted.resetRepeated).choice 1 false false idRand =
      Except.error RLError.noItemsLeft :=
  resetRepeated_keeps_cache rlExhausted 1 idRand (by decide) rfl (by decide)

/-- The cumulative scan only ever returns an element of the list. -/
theorem pickLoop_mem {α : Type} (rndval : ℚ) :
    ∀ (acc : ℚ) (l : List (α × ℚ)) (a : α),
      pickLoop rndval acc l = some a → ∃ w, (a, w) ∈ l := by
  intro acc l
  induction l generalizing acc with
  | nil => intro a h; cases h
  | cons p rest ih =>
    intro a h
    obtain ⟨b, w⟩ := p
    simp only [pickLoop] at h
    split at h
    · injection h with h'
      subst h'
      exact ⟨w, List.mem_cons_self _ _⟩
    · obtain ⟨w', hw'⟩ := ih (acc + w) a h
      exact ⟨w', List.mem_cons_of_mem _ hw'⟩

/-- `drawOne` under effective `no_repeat`, with the filters spelled out. -/
theorem drawOne_true_def {α : Type} [DecidableEq α] (s : RandomList α)
    (repeated : List α) (r : DrawRand α) :
    drawOne s true repeated r =
      (if ((s.items.filter (fun x => decide (0 < x.2))).filter
            (fun x => decide (x.1 ∉ repeated))).isEmpty then
        Except.error RLError.noItemsLeft
      else
        match pickLoop r.rnd 0 (r.shuffle ((s.items.filter
            (fun x => decide (0 < x.2))).filter
            (fun x => decide (x.1 ∉ repeated)))) with
        | some a => Except.ok a
        | none =>
          match (r.shuffle ((s.items.filter (fun x => decide (0 < x.2))).filter
              (fun x => decide (x.1 ∉ repeated)))).getLast? with
          | some e => Except.ok e.1
          | none => Except.error RLError.indexError) := rfl

/-- A failing `drawOne` under `no_repeat` carries `NoItemsLeftException`
and happens exactly on an empty allowed list. -/
theorem drawOne_error_spec {α : Type} [DecidableEq α] (s : RandomList α)
    (repeated : List α) (r : DrawRand α)
    (hperm : ∀ l, (r.shuffle l).Perm l) (e : RLError)
    (h : drawOne s true repeated r = Except.error e) :
    e = RLError.noItemsLeft ∧
    ((s.items.filter (fun x => decide (0 < x.2))).filter
      (fun x => decide (x.1 ∉ repeated))) = [] := by
  rw [drawOne_true_def] at h
  split at h
  · rename_i hcond
    refine ⟨?_, List.isEmpty_iff.mp hcond⟩
    injection h with h'
    exact h'.symm
  · rename_i hcond
    split at h
    · exact Except.noConfusion h
    · split at h
      · exact Except.noConfusion h
      · rename_i hlast
        exfalso
        have hsh := List.getLast?_eq_none_iff.mp hlast
        have hp := hperm ((s.items.filter (fun x => decide (0 < x.2))).filter
          (fun x => decide (x.1 ∉ repeated)))
        rw [hsh] at hp
        have hnil := List.nil_perm.mp hp
        exact hcond (by rw [hnil]; rfl)

/-- A successful `drawOne` under `no_repeat` returns the element of an
entry of the allowed list. -/
theorem drawOne_ok_spec {α : Type} [DecidableEq α] (s : RandomList α)
    (repeated : List α) (r : DrawRand α)
    (hperm : ∀ l, (r.shuffle l).Perm l) (c : α)
    (h : drawOne s true repeated r = Except.ok c) :
    ∃ p ∈ (s.items.filter (fun x => decide (0 < x.2))).filter
        (fun x => decide (x.1 ∉ repeated)), p.1 = c := by
  rw [drawOne_true_def] at h
  split at h
  · exact Except.noConfusion h
  · split at h
    · rename_i a hpick
      injection h with h'
      subst h'
      obtain ⟨w, hw⟩ := pickLoop_mem r.rnd 0 _ a hpick
      exact ⟨(a, w), ((hperm _).mem_iff).mp hw, rfl⟩
    · split at h
      · rename_i el hlast
        injection h with h'
        subst h'
        have hmem : el ∈ r.shuffle ((s.items.filter
            (fun x => decide (0 < x.2))).filter
            (fun x => decide (x.1 ∉ repeated))) :=
          List.mem_of_mem_getLast? (Option.mem_def.mpr hlast)
        exact ⟨el, ((hperm _).mem_iff).mp hmem, rfl⟩
      · exact Except.noConfusion h

/-- Membership in the set of still-available values. -/
theorem mem_availSet {α : Type} [DecidableEq α] {items : List (α × ℚ)}
    {repeated : List α} {a : α} :
    a ∈ availSet items repeated ↔
      (∃ w, (a, w) ∈ items ∧ 0 < w) ∧ a ∉ repeated := by
  unfold availSet
  simp only [Finset.mem_sdiff, List.mem_toFinset, List.mem_map, List.mem_filter,
    decide_eq_true_eq]
  constructor
  · rintro ⟨⟨p, ⟨hp, hw⟩, rfl⟩, hnr⟩
    refine ⟨⟨p.2, ?_, hw⟩, hnr⟩
    rwa [Prod.mk.eta]
  · rintro ⟨⟨w, hw, hpos⟩, hnr⟩
    exact ⟨⟨(a, w), ⟨hw, hpos⟩, rfl⟩, hnr⟩

/-- Recording one more chosen value removes exactly it from the available
set. -/
theorem availSet_append_singleton {α : Type} [DecidableEq α]
    (items : List (α × ℚ)) (repeated : List α) (c : α) :
    availSet items (repeated ++ [c]) = (availSet items repeated).erase c := by
  ext a
  simp only [availSet, Finset.mem_erase, Finset.mem_sdiff, List.mem_toFinset,
    List.mem_append, List.mem_singleton]
  tauto

/-- An empty allowed list means no value is available. -/
theorem availSet_empty_of_no_allowed {α : Type} [DecidableEq α]
    (items : List (α × ℚ)) (repeated : List α)
    (h : (items.filter (fun x => decide (0 < x.2))).filter
        (fun x => decide (x.1 ∉ repeated)) = []) :
    availSet items repeated = ∅ := by
  rw [Finset.eq_empty_iff_forall_not_mem]
  intro a ha
  rw [mem_availSet] at ha
  obtain ⟨⟨w, hw, hpos⟩, hnr⟩ := ha
  have hmem : (a, w) ∈ (items.filter (fun x => decide (0 < x.2))).filter
      (fun x => decide (x.1 ∉ repeated)) := by
    rw [List.mem_filter, List.mem_filter]
    refine ⟨⟨hw, ?_⟩, ?_⟩ <;> simp [hpos, hnr]
  rw [h] at hmem
  exact List.not_mem_nil _ hmem

/-- Invariant of the `choice` loop under effective `no_repeat` and no
aging: a successful run of `n` further draws appends `n` pairwise-distinct
fresh positive-weight values to `choices` and to the repeated list, and is
possible exactly when `n` values are still available. -/
theorem choiceLoop_spec {α : Type} [DecidableEq α] (rand : ℕ → DrawRand α)
    (hperm : ∀ i l, ((rand i).shuffle l).Perm l) :
    ∀ (n i : ℕ) (s : RandomList α) (choices repeated : List α),
      (∀ res, choiceLoop true false rand i n s choices repeated = Except.ok res →
        n ≤ (availSet s.items repeated).card ∧
        ∃ news, res.1 = choices ++ news ∧ news.length = n ∧ news.Nodup ∧
          (∀ c ∈ news, (∃ w, (c, w) ∈ s.items ∧ 0 < w) ∧ c ∉ repeated) ∧
          res.2.1 = repeated ++ news ∧ res.2.2.items = s.items) ∧
      (∀ e, choiceLoop true false rand i n s choices repeated = Except.error e →
        e = RLError.noItemsLeft ∧ (availSet s.items repeated).card < n) := by
  intro n
  induction n with
  | zero =>
    intro i s choices repeated
    constructor
    · intro res h
      simp only [choiceLoop] at h
      injection h with h'
      subst h'
      refine ⟨Nat.zero_le _, [], by simp, rfl, List.nodup_nil, ?_, by simp, rfl⟩
      intro c hc
      exact absurd hc (List.not_mem_nil c)
    · intro e h
      simp only [choiceLoop] at h
      exact Except.noConfusion h
  | succ n ih =>
    intro i s choices repeated
    cases hdraw : drawOne s true repeated (rand i) with
    | error e0 =>
      have hstep : choiceLoop true false rand i (n + 1) s choices repeated =
          Except.error e0 := by
        simp only [choiceLoop]
        rw [hdraw]
      obtain ⟨he0, hallow⟩ := drawOne_error_spec s repeated (rand i) (hperm i) e0 hdraw
      have hcard : (availSet s.items repeated).card = 0 := by
        rw [availSet_empty_of_no_allowed s.items repeated hallow]
        exact Finset.card_empty
      constructor
      · intro res h
        rw [hstep] at h
        exact Except.noConfusion h
      · intro e h
        rw [hstep] at h
        injection h with h'
        subst h'
        exact ⟨he0, by omega⟩
    | ok c =>
      have hstep : choiceLoop true false rand i (n + 1) s choices repeated =
          choiceLoop true false rand (i + 1) n { s with last := choices ++ [c] }
            (choices ++ [c]) (repeated ++ [c]) := by
        simp only [choiceLoop]
        rw [hdraw]
        rfl
      obtain ⟨p, hpmem, hpc⟩ := drawOne_ok_spec s repeated (rand i) (hperm i) c hdraw
      rw [List.mem_filter, List.mem_filter] at hpmem
      obtain ⟨⟨hpitems, hppos⟩, hpnr⟩ := hpmem
      rw [decide_eq_true_eq] at hppos hpnr
      have hcitems : ∃ w, (c, w) ∈ s.items ∧ 0 < w := by
        refine ⟨p.2, ?_, hppos⟩
        rw [← hpc, Prod.mk.eta]
        exact hpitems
      have hcnr : c ∉ repeated := hpc ▸ hpnr
      have hcavail : c ∈ availSet s.items repeated := mem_availSet.mpr ⟨hcitems, hcnr⟩
      have hcard1 : 1 ≤ (availSet s.items repeated).card :=
        Finset.card_pos.mpr ⟨c, hcavail⟩
      have hcardrec : (availSet s.items (repeated ++ [c])).card =
          (availSet s.items repeated).card - 1 := by
        rw [availSet_append_singleton, Finset.card_erase_of_mem hcavail]
      have hitems' : ({ s with last := choices ++ [c] } : RandomList α).items =
          s.items := rfl
      obtain ⟨ihok, iherr⟩ :=
        ih (i + 1) { s with last := choices ++ [c] } (choices ++ [c]) (repeated ++ [c])
      constructor
      · intro res h
        rw [hstep] at h
        obtain ⟨hcount, news, h1, h2, h3, h4, h5, h6⟩ := ihok res h
        rw [hitems', hcardrec] at hcount
        refine ⟨by omega, c :: news, ?_, by simp [h2], ?_, ?_, ?_, h6⟩
        · rw [h1]
          simp
        · rw [List.nodup_cons]
          refine ⟨?_, h3⟩
          intro hcnews
          exact (h4 c hcnews).2 (by simp)
        · intro x hx
          rcases List.mem_cons.mp hx with hx | hx
          · subst hx
            exact ⟨hcitems, hcnr⟩
          · obtain ⟨hxw, hxnr⟩ := h4 x hx
            refine ⟨hxw, ?_⟩
            intro hxrep
            exact hxnr (by simp [hxrep])
        · rw [h5]
          simp
      · intro e h
        rw [hstep] at h
        obtain ⟨he, hlt⟩ := iherr e h
        refine ⟨he, ?_⟩
        rw [hitems', hcardrec] at hlt
        omega

/-- C1: under `no_repeat` (per-call or global) and without aging, a
successful `choice(k)` returns `k` pairwise-distinct values, each an
element of the list holding a strictly positive weight (and not yet in the
repeated cache); it succeeds exactly when at least `k` positive-weight
values are still available — i.e. it raises `NoItemsLeftException`, and
only that error, exactly when at some draw every positive-weight element
has already been chosen in this call or recorded in the cache. -/
theorem randomlist_choice_spec {α : Type} [DecidableEq α] (s : RandomList α)
    (k : ℕ) (noRepArg : Bool) (rand : ℕ → DrawRand α)
    (hperm : ∀ i l, ((rand i).shuffle l).Perm l)
    (hno : (noRepArg || s.noRepeat) = true)
    (hage : s.alwaysAge = false) :
    (∀ cs s', s.choice k noRepArg false rand = Except.ok (cs, s') →
      cs.length = k ∧ cs.Nodup ∧
      ∀ c ∈ cs, (∃ w, (c, w) ∈ s.items ∧ 0 < w) ∧ c ∉ s.repeatedCache) ∧
    ((∃ r, s.choice k noRepArg false rand = Except.ok r) ↔
      k ≤ (availSet s.items s.repeatedCache).card) ∧
    (∀ e, s.choice k noRepArg false rand = Except.error e →
      e = RLError.noItemsLeft) := by
  have hchoice : s.choice k noRepArg false rand =
      match choiceLoop true false rand 0 k s [] s.repeatedCache with
      | Except.error e => Except.error e
      | Except.ok r =>
        Except.ok (r.1, { r.2.2 with repeatedCache :=
          if s.noRepeat then r.2.1 ++ r.2.1 else r.2.1 }) := by
    simp only [RandomList.choice, hno, Bool.false_or, hage]
  obtain ⟨hok, herr⟩ := choiceLoop_spec rand hperm k 0 s [] s.repeatedCache
  refine ⟨?_, ?_, ?_⟩
  · intro cs s' h
    rw [hchoice] at h
    cases hres : choiceLoop true false rand 0 k s [] s.repeatedCache with
    | error e =>
      rw [hres] at h
      exact Except.noConfusion h
    | ok r =>
      rw [hres] at h
      injection h with h'
      have hcs : r.1 = cs := congrArg Prod.fst h'
      obtain ⟨hcount, news, h1, h2, h3, h4, h5, h6⟩ := hok r hres
      rw [← hcs, h1, List.nil_append]
      exact ⟨h2, h3, h4⟩
  · constructor
    · rintro ⟨r0, h⟩
      rw [hchoice] at h
      cases hres : choiceLoop true false rand 0 k s [] s.repeatedCache with
      | error e =>
        rw [hres] at h
        exact Except.noConfusion h
      | ok r =>
        exact (hok r hres).1
    · intro hk
      cases hres : choiceLoop true false rand 0 k s [] s.repeatedCache with
      | error e =>
        obtain ⟨_, hlt⟩ := herr e hres
        omega
      | ok r =>
        refine ⟨(r.1, { r.2.2 with repeatedCache :=
          if s.noRepeat then r.2.1 ++ r.2.1 else r.2.1 }), ?_⟩
        rw [hchoice, hres]
  · intro e h
    rw [hchoice] at h
    cases hres : choiceLoop true false rand 0 k s [] s.repeatedCache with
    | error e0 =>
      rw [hres] at h
      injection h with h'
      rw [← h']
      exact (herr e0 hres).1
    | ok r =>
      rw [hres] at h
      exact Except.noConfusion h

/-- Witness for C1: on a two-item unit-weight list with an empty cache,
`choice(2, no_repeat=True)` succeeds. -/
theorem randomlist_choice_spec_witness :
    ∃ r, rlChoiceWitState.choice 2 false false idRand = Except.ok r :=
  (randomlist_choice_spec rlChoiceWitState 2 false idRand
    (fun _ _ => List.Perm.refl _) rfl rfl).2.1.mpr (by decide)

section Sorting

variable {α K : Type} [LinearOrder K]

/-- The single-key comparison is transitive. -/
theorem keyLe_trans (f : α → K) (a b c : α) (h1 : keyLe f a b = true)
    (h2 : keyLe f b c = true) : keyLe f a c = true := by
  simp only [keyLe, decide_eq_true_eq] at *
  exact le_trans h1 h2

/-- The single-key comparison is total. -/
theorem keyLe_total (f : α → K) (a b : α) : keyLe f a b || keyLe f b a := by
  simp only [keyLe, Bool.or_eq_true, decide_eq_true_eq]
  exact le_total (f a) (f b)

/-- The tuple comparison is transitive. -/
theorem keysLe_trans (ks : List (α → K)) (a b c : α) (h1 : keysLe ks a b = true)
    (h2 : keysLe ks b c = true) : keysLe ks a c = true := by
  induction ks with
  | nil => rfl
  | cons f rest ih =>
    simp only [keysLe] at h1 h2 ⊢
    rcases lt_trichotomy (f a) (f b) with hab | hab | hab
    · rcases lt_trichotomy (f b) (f c) with hbc | hbc | hbc
      · rw [if_pos (lt_trans hab hbc)]
      · rw [if_pos (hbc ▸ hab)]
      · exfalso
        rw [if_neg (not_lt.mpr (le_of_lt hbc)), if_pos hbc] at h2
        exact absurd h2 (by simp)
    · rcases lt_trichotomy (f b) (f c) with hbc | hbc | hbc
      · rw [if_pos (hab ▸ hbc)]
      · rw [if_neg (by rw [hab, hbc]; exact lt_irrefl _),
          if_neg (by rw [hab, hbc]; exact lt_irrefl _)]
        rw [if_neg (by rw [hab]; exact lt_irrefl _),
          if_neg (by rw [hab]; exact lt_irrefl _)] at h1
        rw [if_neg (by rw [hbc]; exact lt_irrefl _),
          if_neg (by rw [hbc]; exact lt_irrefl _)] at h2
        exact ih h1 h2
      · rw [if_neg (not_lt.mpr (le_of_lt hbc)), if_pos hbc] at h2
        exact absurd h2 (by simp)
    · rw [if_neg (not_lt.mpr (le_of_lt hab)), if_pos hab] at h1
      exact absurd h1 (by simp)

/-- The tuple comparison is total. -/
theorem keysLe_total (ks : List (α → K)) (a b : α) :
    keysLe ks a b || keysLe ks b a := by
  induction ks with
  | nil => rfl
  | cons f rest ih =>
    simp only [keysLe]
    rcases lt_trichotomy (f a) (f b) with h | h | h
    · rw [if_pos h]
      simp
    · rw [if_neg (by rw [h]; exact lt_irrefl _), if_neg (by rw [h]; exact lt_irrefl _),
        if_neg (by rw [h]; exact lt_irrefl _), if_neg (by rw [h]; exact lt_irrefl _)]
      exact ih
    · simp [h, lt_asymm h]

/-- Tuple equality is exactly mutual tuple `≤`. -/
theorem eqKeys_iff_keysLe (ks : List (α → K)) (a b : α) :
    eqKeys ks a b = true ↔ (keysLe ks a b = true ∧ keysLe ks b a = true) := by
  induction ks with
  | nil => simp [eqKeys, keysLe]
  | cons f rest ih =>
    simp only [eqKeys, List.all_cons, Bool.and_eq_true, decide_eq_true_eq] at *
    constructor
    · rintro ⟨hfab, hrest⟩
      obtain ⟨h1, h2⟩ := ih.mp hrest
      simp only [keysLe]
      rw [if_neg (by rw [hfab]; exact lt_irrefl _),
        if_neg (by rw [hfab]; exact lt_irrefl _),
        if_neg (by rw [hfab]; exact lt_irrefl _),
        if_neg (by rw [hfab]; exact lt_irrefl _)]
      exact ⟨h1, h2⟩
    · rintro ⟨h1, h2⟩
      simp only [keysLe] at h1 h2
      rcases lt_trichotomy (f a) (f b) with h | h | h
      · rw [if_neg (lt_asymm h), if_pos h] at h2
        exact absurd h2 (by simp)
      · rw [if_neg (by rw [h]; exact lt_irrefl _),
          if_neg (by rw [h]; exact lt_irrefl _)] at h1
        rw [if_neg (by rw [h]; exact lt_irrefl _),
          if_neg (by rw [h]; exact lt_irrefl _)] at h2
        exact ⟨h, ih.mpr ⟨h1, h2⟩⟩
      · rw [if_neg (not_lt.mpr (le_of_lt h)), if_pos h] at h1
        exact absurd h1 (by simp)

/-- `eqKeys` is reflexive. -/
theorem eqKeys_refl (ks : List (α → K)) (a : α) : eqKeys ks a a = true := by
  simp [eqKeys]

/-- Every filter class of mutually comparable elements survives a stable
merge sort unchanged: the heart of sort stability. -/
theorem mergeSort_filter_of_mutual_le (le : α → α → Bool)
    (htrans : ∀ (a b c : α), le a b → le b c → le a c)
    (htotal : ∀ (a b : α), le a b || le b a) (p : α → Bool)
    (hp : ∀ b c, p b = true → p c = true → le b c = true) (l : List α) :
    (l.mergeSort le).filter p = l.filter p := by
  have hpw : (l.filter p).Pairwise (fun a b => le a b = true) := by
    apply List.pairwise_of_forall_mem_list
    intro a ha b hb
    exact hp a b (List.of_mem_filter ha) (List.of_mem_filter hb)
  have hsub : List.Sublist (l.filter p) (l.mergeSort le) :=
    List.sublist_mergeSort htrans htotal hpw (List.filter_sublist l)
  have hsub2 : List.Sublist (l.filter p) ((l.mergeSort le).filter p) := by
    have h1 : List.Sublist ((l.filter p).filter p) ((l.mergeSort le).filter p) :=
      List.Sublist.filter p hsub
    rwa [List.filter_filter, (by funext a; cases hpa : p a <;> simp [hpa] :
      (fun a => p a && p a) = p)] at h1
  have hlen : ((l.mergeSort le).filter p).length = (l.filter p).length :=
    ((List.mergeSort_perm l le).filter p).length_eq
  exact (hsub2.eq_of_length hlen.symm).symm

/-- Erasing an element that passes the filter commutes with filtering. -/
theorem filter_erase_pos {β : Type} [DecidableEq β] (p : β → Bool) (x : β)
    (hx : p x = true) : ∀ (l : List β), (l.erase x).filter p = (l.filter p).erase x := by
  intro l
  induction l with
  | nil => rfl
  | cons a t ih =>
    by_cases hax : a = x
    · subst hax
      rw [List.erase_cons_head, List.filter_cons_of_pos hx, List.erase_cons_head]
    · rw [List.erase_cons_tail (by simpa using hax)]
      cases hpa : p a with
      | true =>
        rw [List.filter_cons_of_pos hpa, List.filter_cons_of_pos hpa,
          List.erase_cons_tail (by simpa using hax), ih]
      | false =>
        rw [List.filter_cons_of_neg (by simp [hpa]),
          List.filter_cons_of_neg (by simp [hpa]), ih]

/-- Erasing an element that fails the filter leaves the filter output
unchanged. -/
theorem filter_erase_neg {β : Type} [DecidableEq β] (p : β → Bool) (x : β)
    (hx : p x = false) : ∀ (l : List β), (l.erase x).filter p = l.filter p := by
  intro l
  induction l with
  | nil => rfl
  | cons a t ih =>
    by_cases hax : a = x
    · subst hax
      rw [List.erase_cons_head, List.filter_cons_of_neg (by simp [hx])]
    · rw [List.erase_cons_tail (by simpa using hax)]
      cases hpa : p a with
      | true =>
        rw [List.filter_cons_of_pos hpa, List.filter_cons_of_pos hpa, ih]
      | false =>
        rw [List.filter_cons_of_neg (by simp [hpa]),
          List.filter_cons_of_neg (by simp [hpa]), ih]

/-- The tail of a stable sort is a stable sort of the input with the head
value erased. -/
theorem stable_sort_tail {β : Type} [DecidableEq β] (le eqv : β → β → Bool)
    (hrefl : ∀ a, eqv a a = true)
    (hext : ∀ a b, eqv a b = true → ∀ c, eqv a c = eqv b c)
    (x : β) (t l : List β) (h : IsStableSort le eqv l (x :: t)) :
    IsStableSort le eqv (l.erase x) t := by
  obtain ⟨hperm, hsort, hfilt⟩ := h
  have hxl : x ∈ l := hperm.subset (List.mem_cons_self x t)
  have hhead : l.filter (eqv x) = x :: t.filter (eqv x) := by
    rw [← hfilt x, List.filter_cons_of_pos (hrefl x)]
  refine ⟨?_, (List.pairwise_cons.mp hsort).2, ?_⟩
  · exact (hperm.trans (List.perm_cons_erase hxl)).cons_inv
  · intro a
    by_cases hax : eqv a x = true
    · have hexta : ∀ c, eqv a c = eqv x c := hext a x hax
      have h1 : t.filter (eqv a) = t.filter (eqv x) :=
        List.filter_congr (fun c _ => hexta c)
      have h2 : (l.erase x).filter (eqv a) = (l.erase x).filter (eqv x) :=
        List.filter_congr (fun c _ => hexta c)
      rw [h1, h2, filter_erase_pos (eqv x) x (hrefl x) l, hhead,
        List.erase_cons_head]
    · have hax' : eqv a x = false := by simpa using hax
      rw [filter_erase_neg (eqv a) x hax' l, ← hfilt a,
        List.filter_cons_of_neg (by simp [hax'])]

/-- A stable sort — a sorted permutation whose equivalence classes appear
as the same subsequences as in the input — is unique. -/
theorem stable_sort_unique {β : Type} [DecidableEq β] (le eqv : β → β → Bool)
    (htrans : ∀ (a b c : β), le a b = true → le b c = true → le a c = true)
    (htotal : ∀ (a b : β), le a b || le b a)
    (heqv : ∀ (a b : β), eqv a b = true ↔ (le a b = true ∧ le b a = true)) :
    ∀ (s1 l s2 : List β), IsStableSort le eqv l s1 → IsStableSort le eqv l s2 →
      s1 = s2 := by
  have hrefl : ∀ a, eqv a a = true := by
    intro a
    rcases Bool.or_eq_true_iff.mp (htotal a a) with h | h <;>
      exact (heqv a a).mpr ⟨h, h⟩
  have hext : ∀ a b, eqv a b = true → ∀ c, eqv a c = eqv b c := by
    intro a b hab c
    obtain ⟨hab1, hab2⟩ := (heqv a b).mp hab
    have hiff : (eqv a c = true ↔ eqv b c = true) := by
      rw [heqv, heqv]
      constructor
      · rintro ⟨h1, h2⟩
        exact ⟨htrans _ _ _ hab2 h1, htrans _ _ _ h2 hab1⟩
      · rintro ⟨h1, h2⟩
        exact ⟨htrans _ _ _ hab1 h1, htrans _ _ _ h2 hab2⟩
    revert hiff
    cases eqv a c <;> cases eqv b c <;> simp
  intro s1
  induction s1 with
  | nil =>
    intro l s2 h1 h2
    have hl : l = [] := h1.1.symm.eq_nil
    subst hl
    exact (List.perm_nil.mp h2.1).symm
  | cons x t1 ih =>
    intro l s2 h1 h2
    cases s2 with
    | nil =>
      have := List.perm_nil.mp (h1.1.trans h2.1.symm)
      exact absurd this (by simp)
    | cons y t2 =>
      obtain ⟨hperm1, hsort1, hfilt1⟩ := h1
      obtain ⟨hperm2, hsort2, hfilt2⟩ := h2
      have hhead1 : l.filter (eqv x) = x :: t1.filter (eqv x) := by
        rw [← hfilt1 x, List.filter_cons_of_pos (hrefl x)]
      have hxy : x = y := by
        by_cases heq : eqv x y = true
        · have h2f : (y :: t2).filter (eqv x) = l.filter (eqv x) := hfilt2 x
          rw [List.filter_cons_of_pos heq, hhead1] at h2f
          injection h2f with hh _
          exact hh.symm
        · have heq' : eqv x y = false := by simpa using heq
          exfalso
          have h2f : (y :: t2).filter (eqv x) = l.filter (eqv x) := hfilt2 x
          rw [List.filter_cons_of_neg (by simp [heq']), hhead1] at h2f
          have hxt2 : x ∈ t2 := by
            have hmem : x ∈ t2.filter (eqv x) := by
              rw [h2f]
              exact List.mem_cons_self _ _
            exact List.mem_of_mem_filter hmem
          have hyx : le y x = true :=
            List.rel_of_pairwise_cons hsort2 hxt2
          have hys1 : y ∈ x :: t1 := hperm1.mem_iff.mpr
            (hperm2.subset (List.mem_cons_self y t2))
          rcases List.mem_cons.mp hys1 with hyx' | hyt1
          · rw [hyx', hrefl x] at heq'
            exact Bool.noConfusion heq'
          · have hxy' : le x y = true := List.rel_of_pairwise_cons hsort1 hyt1
            rw [(heqv x y).mpr ⟨hxy', hyx⟩] at heq'
            exact Bool.noConfusion heq'
      subst hxy
      have ht1 : IsStableSort le eqv (l.erase x) t1 :=
        stable_sort_tail le eqv hrefl hext x t1 l ⟨hperm1, hsort1, hfilt1⟩
      have ht2 : IsStableSort le eqv (l.erase x) t2 :=
        stable_sort_tail le eqv hrefl hext x t2 l ⟨hperm2, hsort2, hfilt2⟩
      rw [ih (l.erase x) t2 ht1 ht2]

/-- A strict first-key comparison decides the tuple comparison. -/
theorem keysLe_cons_lt (f : α → K) (rest : List (α → K)) {a b : α}
    (h : f a < f b) : keysLe (f :: rest) a b = true := by
  simp only [keysLe]
  rw [if_pos h]

/-- Equal first keys defer the tuple comparison to the remaining keys. -/
theorem keysLe_cons_eq (f : α → K) (rest : List (α → K)) {a b : α}
    (h : f a = f b) : keysLe (f :: rest) a b = keysLe rest a b := by
  simp only [keysLe]
  rw [if_neg (by rw [h]; exact lt_irrefl _), if_neg (by rw [h]; exact lt_irrefl _)]

/-- Unfolding of tuple equality at a cons. -/
theorem eqKeys_cons (f : α → K) (rest : List (α → K)) (a b : α) :
    eqKeys (f :: rest) a b = (decide (f a = f b) && eqKeys rest a b) := rfl

/-- The chains built by `ranked` concatenate back to the sorted input. -/
theorem chainGroups_flatten (f : α → K) :
    ∀ (rest : List α) (prev : α) (chain : List α),
      (chainGroups f prev chain rest).flatten = chain ++ rest := by
  intro rest
  induction rest with
  | nil =>
    intro prev chain
    simp [chainGroups]
  | cons x xs ih =>
    intro prev chain
    simp only [chainGroups]
    split
    · rw [ih]
      simp
    · rw [List.flatten_cons, ih]
      simp

/-- Every element of a chain group comes from the seed chain or the rest of
the sorted list. -/
theorem chainGroups_sub (f : α → K) (rest : List α) (prev : α) (chain : List α)
    {g : List α} {a : α} (hg : g ∈ chainGroups f prev chain rest) (ha : a ∈ g) :
    a ∈ chain ++ rest := by
  have hmem := List.mem_flatten.mpr ⟨g, hg, ha⟩
  rwa [chainGroups_flatten] at hmem

/-- Chain groups seeded with a non-empty chain are non-empty. -/
theorem chainGroups_ne_nil (f : α → K) :
    ∀ (rest : List α) (prev : α) (chain : List α), chain ≠ [] →
      ∀ g ∈ chainGroups f prev chain rest, g ≠ [] := by
  intro rest
  induction rest with
  | nil =>
    intro prev chain hchain g hg
    simp only [chainGroups, List.mem_singleton] at hg
    exact hg ▸ hchain
  | cons x xs ih =>
    intro prev chain hchain g hg
    simp only [chainGroups] at hg
    split at hg
    · exact ih x (chain ++ [x]) (by simp) g hg
    · rcases List.mem_cons.mp hg with hg | hg
      · exact hg ▸ hchain
      · exact ih x [x] (by simp) g hg

/-- The key is constant on every chain group. -/
theorem chainGroups_const (f : α → K) :
    ∀ (rest : List α) (prev : α) (chain : List α),
      (∀ c ∈ chain, f c = f prev) →
      ∀ g ∈ chainGroups f prev chain rest, ∀ a ∈ g, ∀ b ∈ g, f a = f b := by
  intro rest
  induction rest with
  | nil =>
    intro prev chain hchain g hg a ha b hb
    simp only [chainGroups, List.mem_singleton] at hg
    subst hg
    rw [hchain a ha, hchain b hb]
  | cons x xs ih =>
    intro prev chain hchain g hg a ha b hb
    simp only [chainGroups] at hg
    split at hg
    · rename_i hfx
      refine ih x (chain ++ [x]) ?_ g hg a ha b hb
      intro c hc
      rcases List.mem_append.mp hc with hc | hc
      · rw [hchain c hc, hfx]
      · rw [List.mem_singleton.mp hc]
    · rcases List.mem_cons.mp hg with hg | hg
      · subst hg
        rw [hchain a ha, hchain b hb]
      · refine ih x [x] ?_ g hg a ha b hb
        intro c hc
        rw [List.mem_singleton.mp hc]

/-- On a sorted remainder, chain groups appear in strictly increasing key
order. -/
theorem chainGroups_pairwise_lt (f : α → K) :
    ∀ (rest : List α) (prev : α) (chain : List α),
      List.Pairwise (fun a b => f a ≤ f b) (prev :: rest) →
      (∀ c ∈ chain, f c = f prev) →
      (chainGroups f prev chain rest).Pairwise
        (fun g1 g2 => ∀ a ∈ g1, ∀ b ∈ g2, f a < f b) := by
  intro rest
  induction rest with
  | nil =>
    intro prev chain _ _
    exact List.pairwise_singleton _ _
  | cons x xs ih =>
    intro prev chain hpair hchain
    have hpx : f prev ≤ f x :=
      (List.pairwise_cons.mp hpair).1 x (List.mem_cons_self _ _)
    have htail : List.Pairwise (fun a b => f a ≤ f b) (x :: xs) :=
      (List.pairwise_cons.mp hpair).2
    simp only [chainGroups]
    split
    · rename_i hfx
      refine ih x (chain ++ [x]) htail ?_
      intro c hc
      rcases List.mem_append.mp hc with hc | hc
      · rw [hchain c hc, hfx]
      · rw [List.mem_singleton.mp hc]
    · rename_i hfx
      rw [List.pairwise_cons]
      constructor
      · intro g' hg' a ha b hb
        have hbmem : b ∈ [x] ++ xs := chainGroups_sub f xs x [x] hg' hb
        have hfa : f a = f prev := hchain a ha
        have hprevx : f prev < f x :=
          lt_of_le_of_ne hpx (fun hc => hfx hc.symm)
        rcases List.mem_append.mp hbmem with hb' | hb'
        · rw [List.mem_singleton.mp hb', hfa]
          exact hprevx
        · have hxb : f x ≤ f b := (List.pairwise_cons.mp htail).1 b hb'
          rw [hfa]
          exact lt_of_lt_of_le hprevx hxb
      · refine ih x [x] htail ?_
        intro c hc
        rw [List.mem_singleton.mp hc]

/-- The stable sort behind `ranked` is sorted by the key. -/
theorem pySorted_pairwise (f : α → K) (l : List α) :
    (pySorted f l).Pairwise (fun a b => f a ≤ f b) := by
  have h := @List.sorted_mergeSort _ (keyLe f) (keyLe_trans f) (keyLe_total f) l
  exact h.imp (fun hab => by simpa [keyLe] using hab)

/-- `ranked` groups concatenate back to the sorted list. -/
theorem ranked_flatten (f : α → K) (l : List α) :
    (ranked f l).flatten = pySorted f l := by
  unfold ranked
  cases h : pySorted f l with
  | nil => rfl
  | cons x xs =>
    rw [chainGroups_flatten]
    rfl

/-- `ranked` produces only non-empty groups. -/
theorem ranked_ne_nil (f : α → K) (l : List α) :
    ∀ g ∈ ranked f l, g ≠ [] := by
  unfold ranked
  cases h : pySorted f l with
  | nil =>
    intro g hg
    exact absurd hg (List.not_mem_nil g)
  | cons x xs => exact chainGroups_ne_nil f xs x [x] (by simp)

/-- The key is constant on every `ranked` group. -/
theorem ranked_const (f : α → K) (l : List α) :
    ∀ g ∈ ranked f l, ∀ a ∈ g, ∀ b ∈ g, f a = f b := by
  unfold ranked
  cases h : pySorted f l with
  | nil =>
    intro g hg
    exact absurd hg (List.not_mem_nil g)
  | cons x xs =>
    refine chainGroups_const f xs x [x] ?_
    intro c hc
    rw [List.mem_singleton.mp hc]

/-- `ranked` groups are in strictly increasing key order. -/
theorem ranked_pairwise_lt (f : α → K) (l : List α) :
    (ranked f l).Pairwise (fun g1 g2 => ∀ a ∈ g1, ∀ b ∈ g2, f a < f b) := by
  unfold ranked
  cases h : pySorted f l with
  | nil => exact List.Pairwise.nil
  | cons x xs =>
    refine chainGroups_pairwise_lt f xs x [x] ?_ ?_
    · have := pySorted_pairwise f l
      rwa [h] at this
    · intro c hc
      rw [List.mem_singleton.mp hc]

/-- Flattening respects group-wise permutations. -/
theorem perm_flatten_map {β : Type} (F : List β → List β) :
    ∀ (L : List (List β)), (∀ g ∈ L, (F g).Perm g) →
      ((L.map F).flatten).Perm L.flatten := by
  intro L
  induction L with
  | nil => intro _; exact List.Perm.refl _
  | cons g L ih =>
    intro hf
    simp only [List.map_cons, List.flatten_cons]
    exact (hf g (List.mem_cons_self _ _)).append
      (ih (fun g' hg' => hf g' (List.mem_cons_of_mem _ hg')))

/-- The per-group transformation of `multisorted` with one key peeled off:
it permutes the group, sorts it by the remaining keys, and preserves each
remaining-keys equivalence class as a subsequence. -/
theorem msGroup_spec (rest : List (α → K))
    (ihrec : rest ≠ [] → ∀ l : List α,
      IsStableSort (keysLe rest) (eqKeys rest) l (multisorted rest l))
    (g : List α) :
    ((if 1 < g.length then (if rest.isEmpty then g else multisorted rest g)
        else g).Perm g) ∧
    List.Pairwise (fun a b => keysLe rest a b = true)
      (if 1 < g.length then (if rest.isEmpty then g else multisorted rest g)
        else g) ∧
    (∀ a, (if 1 < g.length then (if rest.isEmpty then g else multisorted rest g)
        else g).filter (eqKeys rest a) = g.filter (eqKeys rest a)) := by
  by_cases hlen : 1 < g.length
  · by_cases hrest : rest.isEmpty
    · simp only [if_pos hlen, if_pos hrest]
      refine ⟨List.Perm.refl g, ?_, fun a => trivial⟩
      have hrest' : rest = [] := List.isEmpty_iff.mp hrest
      subst hrest'
      exact List.pairwise_of_forall_mem_list (fun a _ b _ => rfl)
    · simp only [if_pos hlen, if_neg hrest]
      have hrest' : rest ≠ [] := fun hc => hrest (by rw [hc]; rfl)
      obtain ⟨hp, hs, hf⟩ := ihrec hrest' g
      exact ⟨hp, hs, hf⟩
  · simp only [if_neg hlen]
    refine ⟨List.Perm.refl g, ?_, fun a => trivial⟩
    match g with
    | [] => exact List.Pairwise.nil
    | [a] => exact List.pairwise_singleton _ _
    | a :: b :: t =>
      exfalso
      apply hlen
      simp only [List.length_cons]
      omega

/-- Rebuilding the ranking groups of the first key, each replaced by a
stable sort under the remaining keys, yields a stable sort under the full
key tuple. -/
theorem stable_assembly (f : α → K) (rest : List (α → K)) (l : List α)
    (F : List α → List α)
    (hgperm : ∀ g ∈ ranked f l, (F g).Perm g)
    (hgsort : ∀ g ∈ ranked f l,
      List.Pairwise (fun a b => keysLe rest a b = true) (F g))
    (hgfilt : ∀ g ∈ ranked f l, ∀ a,
      (F g).filter (eqKeys rest a) = g.filter (eqKeys rest a)) :
    IsStableSort (keysLe (f :: rest)) (eqKeys (f :: rest)) l
      (((ranked f l).map F).flatten) := by
  have hflat : (ranked f l).flatten = pySorted f l := ranked_flatten f l
  refine ⟨?_, ?_, ?_⟩
  · refine (perm_flatten_map F (ranked f l) hgperm).trans ?_
    rw [hflat]
    exact List.mergeSort_perm l (keyLe f)
  · rw [List.pairwise_flatten]
    constructor
    · intro m hm
      obtain ⟨g, hg, rfl⟩ := List.mem_map.mp hm
      refine (hgsort g hg).imp_of_mem ?_
      intro a b ha hb hab
      have ham : a ∈ g := ((hgperm g hg).mem_iff).mp ha
      have hbm : b ∈ g := ((hgperm g hg).mem_iff).mp hb
      rw [keysLe_cons_eq f rest (ranked_const f l g hg a ham b hbm)]
      exact hab
    · rw [List.pairwise_map]
      refine (ranked_pairwise_lt f l).imp_of_mem ?_
      intro g1 g2 hg1 hg2 hlt a ha b hb
      have ham : a ∈ g1 := ((hgperm g1 hg1).mem_iff).mp ha
      have hbm : b ∈ g2 := ((hgperm g2 hg2).mem_iff).mp hb
      exact keysLe_cons_lt f rest (hlt a ham b hbm)
  · intro a
    rw [List.filter_flatten, List.map_map]
    have hcongr : (ranked f l).map (List.filter (eqKeys (f :: rest) a) ∘ F) =
        (ranked f l).map (fun g => g.filter (eqKeys (f :: rest) a)) := by
      apply List.map_congr_left
      intro g hg
      show (F g).filter (eqKeys (f :: rest) a) = g.filter (eqKeys (f :: rest) a)
      obtain ⟨x0, hx0⟩ := List.exists_mem_of_ne_nil g (ranked_ne_nil f l g hg)
      by_cases hfa : f a = f x0
      · have hall : ∀ x ∈ g, f a = f x := by
          intro x hx
          rw [hfa]
          exact ranked_const f l g hg x0 hx0 x hx
        have hpe : ∀ x ∈ g, eqKeys (f :: rest) a x = eqKeys rest a x := by
          intro x hx
          rw [eqKeys_cons, decide_eq_true (hall x hx), Bool.true_and]
        have h1 : (F g).filter (eqKeys (f :: rest) a) =
            (F g).filter (eqKeys rest a) :=
          List.filter_congr
            (fun x hx => hpe x (((hgperm g hg).mem_iff).mp hx))
        have h2 : g.filter (eqKeys (f :: rest) a) = g.filter (eqKeys rest a) :=
          List.filter_congr (fun x hx => hpe x hx)
        rw [h1, h2, hgfilt g hg a]
      · have hpe : ∀ x ∈ g, eqKeys (f :: rest) a x = false := by
          intro x hx
          have hfx : f a ≠ f x := by
            intro hc
            exact hfa (hc.trans (ranked_const f l g hg x hx x0 hx0))
          rw [eqKeys_cons, decide_eq_false hfx, Bool.false_and]
        rw [List.filter_eq_nil_iff.mpr (fun x hx => by
            rw [hpe x (((hgperm g hg).mem_iff).mp hx)]
            exact Bool.false_ne_true),
          List.filter_eq_nil_iff.mpr (fun x hx => by
            rw [hpe x hx]
            exact Bool.false_ne_true)]
    rw [hcongr, ← List.filter_flatten, hflat]
    apply mergeSort_filter_of_mutual_le (keyLe f) (keyLe_trans f) (keyLe_total f)
    intro b c hb hc
    have hab : f a = f b := by
      rw [eqKeys_cons] at hb
      exact of_decide_eq_true (Bool.and_elim_left hb)
    have hac : f a = f c := by
      rw [eqKeys_cons] at hc
      exact of_decide_eq_true (Bool.and_elim_left hc)
    simp only [keyLe, decide_eq_true_eq]
    rw [← hab, ← hac]

/-- `multisorted` with a non-empty key list is the stable sort of its input
by the lexicographic key tuple. -/
theorem multisorted_isStableSort :
    ∀ (ks : List (α → K)), ks ≠ [] → ∀ (l : List α),
      IsStableSort (keysLe ks) (eqKeys ks) l (multisorted ks l) := by
  intro ks
  induction ks with
  | nil => intro h; exact absurd rfl h
  | cons f rest ih =>
    intro _ l
    have hmsc : multisorted (f :: rest) l =
        ((ranked f l).map (fun g => if 1 < g.length then
          (if rest.isEmpty then g else multisorted rest g) else g)).flatten := by
      simp only [multisorted]
    rw [hmsc]
    exact stable_assembly f rest l _
      (fun g _ => (msGroup_spec rest ih g).1)
      (fun g _ => (msGroup_spec rest ih g).2.1)
      (fun g _ => (msGroup_spec rest ih g).2.2)

end Sorting

/-- C3: on a non-empty list and a non-empty list of key functions,
`multisorted(l, key=[f1, ..., fn])` is exactly
`sorted(l, key=lambda x: (f1(x), ..., fn(x)))` — the stable merge sort by
the lexicographic key tuple — and items equal under every key keep their
original relative order (each tuple-equality class is the same subsequence
in the output as in the input). -/
theorem multisorted_eq_sorted_by_keys {α K : Type} [LinearOrder K]
    [DecidableEq α] (l : List α) (ks : List (α → K)) (_hl : l ≠ [])
    (hks : ks ≠ []) :
    multisorted ks l = l.mergeSort (keysLe ks) ∧
    ∀ a, (multisorted ks l).filter (eqKeys ks a) = l.filter (eqKeys ks a) := by
  have h1 := multisorted_isStableSort ks hks l
  have hmut : ∀ a b c, eqKeys ks a b = true → eqKeys ks a c = true →
      keysLe ks b c = true := by
    intro a b c hb hc
    obtain ⟨hab, hba⟩ := (eqKeys_iff_keysLe ks a b).mp hb
    obtain ⟨hac, hca⟩ := (eqKeys_iff_keysLe ks a c).mp hc
    exact keysLe_trans ks b a c hba hac
  have h2 : IsStableSort (keysLe ks) (eqKeys ks) l (l.mergeSort (keysLe ks)) := by
    refine ⟨List.mergeSort_perm l _, ?_, ?_⟩
    · exact List.sorted_mergeSort (keysLe_trans ks) (keysLe_total ks) l
    · intro a
      exact mergeSort_filter_of_mutual_le (keysLe ks) (keysLe_trans ks)
        (keysLe_total ks) (eqKeys ks a) (hmut a) l
  refine ⟨?_, h1.2.2⟩
  exact stable_sort_unique (keysLe ks) (eqKeys ks) (keysLe_trans ks)
    (keysLe_total ks) (eqKeys_iff_keysLe ks) (multisorted ks l) l
    (l.mergeSort (keysLe ks)) h1 h2

/-- Witness for C3 on `[5, 2, 4, 1]` with keys `x % 3` and `x`. -/
theorem multisorted_eq_sorted_by_keys_witness :
    multisorted [fun x => x % 3, fun x : ℕ => x] [5, 2, 4, 1] =
      List.mergeSort [5, 2, 4, 1] (keysLe [fun x => x % 3, fun x : ℕ => x]) :=
  (multisorted_eq_sorted_by_keys [5, 2, 4, 1] [fun x => x % 3, fun x : ℕ => x]
    (List.cons_ne_nil _ _) (List.cons_ne_nil _ _)).1

end Morelib
